import Mathlib

/-!
Verification of the L2-projection inverse discretization connection
(meshmode/discretization/connection/projection.py).

The development shallowly embeds the data model and the algorithms of the
source file:

* a computable exterior-algebra layer (multivectors over a Euclidean space
  of dimension d, represented as coefficient functions on subsets of
  Fin d) modelling the pymbolic geometric-algebra objects used by the
  weight computation, together with a proof that the top-grade
  coefficient of a wedge of d vectors is the matrix determinant;
* element groups, discretizations, interpolation batches and direct
  connections, mirroring the fields the source file reads;
* the constructor dispatch of the inverse connection, its validation,
  the scaled-weight computation with its per-connection memo cache, the
  fused projection kernel, and the Vandermonde evaluation stage.

Scalars are modelled as rationals so that every definition is executable.
-/

namespace L2Proj

/-! ## Exterior algebra layer

pymbolic MultiVector objects over a d-dimensional Euclidean space carry
one rational coefficient per basis blade; blades are indexed by subsets
of Fin d.  The xor operator of the source is the outer (wedge) product. -/

/-- A multivector: one coefficient per basis blade (subset of Fin d). -/
abbrev MV (d : Nat) := Finset (Fin d) → ℚ

/-- Number of out-of-order pairs when writing the blade of `t` before the
blade of `u`: pairs (i, j) with i in t, j in u and j < i. -/
def inversions {d : Nat} (t u : Finset (Fin d)) : ℕ :=
  ∑ i ∈ t, (u.filter (fun j => j < i)).card

/-- Reordering sign of concatenating blade `t` before blade `u`. -/
def epsSign {d : Nat} (t u : Finset (Fin d)) : ℚ :=
  (-1 : ℚ) ^ inversions t u

/-- The basis blade with index set `u`. -/
def blade {d : Nat} (u : Finset (Fin d)) : MV d :=
  fun t => if t = u then 1 else 0

/-- The scalar multivector 1 (identity for the outer product). -/
def mvOne (d : Nat) : MV d := blade ∅

/-- The grade-1 multivector of a coordinate vector, as built by the
MultiVector constructor from an array: the sum of its components times
the corresponding singleton blades. -/
def mvVector {d : Nat} (x : Fin d → ℚ) : MV d :=
  ∑ i ∈ Finset.univ, x i • blade {i}

/-- The outer (wedge) product of two multivectors, blade by blade with
the reordering sign; coefficients on non-disjoint splittings cancel
because a subset and its complement in `s` are always disjoint. -/
def mvOuter {d : Nat} (a b : MV d) : MV d :=
  fun s => ∑ t ∈ s.powerset, epsSign t (s \ t) * a t * b (s \ t)

/-- functools.reduce of the outer product over a list of multivectors
(left fold starting from the first element; the empty case, which raises
in Python and is never reached by the source, is mapped to 1). -/
def mvReduce {d : Nat} : List (MV d) → MV d
  | [] => mvOne d
  | x :: xs => xs.foldl mvOuter x

/-- Wedge of a list of coordinate vectors (reasoning form of mvReduce). -/
def wedgeL {d : Nat} (l : List (Fin d → ℚ)) : MV d :=
  (l.map mvVector).foldl mvOuter (mvOne d)

end L2Proj

namespace L2Proj
/-! ## Data model

The structures mirror exactly the attributes that projection.py reads
from its collaborators: element groups (dimension, element/dof counts,
basis, unit nodes, quadrature weights, reference differentiation
matrices, orthonormality flag), discretizations, interpolation batches,
connection groups and direct connections.  numpy arrays are stored in
numpy shape (rows of rationals); group.unitNodes and
batch.result_unit_nodes use the (dim, nnodes) layout of the source. -/

/-- One element group of a discretization. -/
structure ElementGroup where
  dim : Nat
  nelements : Nat
  nunit_dofs : Nat
  index : Nat
  basisIds : List Nat
  unitNodes : List (List ℚ)
  weights : List ℚ
  diffMatrices : List (List (List ℚ))
  is_orthonormal_basis : Bool
deriving DecidableEq

/-- Fallback group used to totalize list indexing (Python raises
IndexError instead; claims are stated within the valid index ranges). -/
def emptyGroup : ElementGroup :=
  { dim := 0, nelements := 0, nunit_dofs := 0, index := 0, basisIds := [],
    unitNodes := [], weights := [], diffMatrices := [],
    is_orthonormal_basis := false }

/-- A discretization: an ordered sequence of element groups. -/
structure Discretization where
  dim : Nat
  groups : List ElementGroup
deriving DecidableEq

/-- One interpolation batch of a connection group. -/
structure InterpolationBatch where
  from_group_index : Nat
  from_element_indices : List Nat
  to_element_indices : List Nat
  result_unit_nodes : List (List ℚ)
deriving DecidableEq

def emptyBatch : InterpolationBatch :=
  { from_group_index := 0, from_element_indices := [],
    to_element_indices := [], result_unit_nodes := [] }

/-- One group of a direct connection: an ordered sequence of batches. -/
structure ConnectionGroup where
  batches : List InterpolationBatch
deriving DecidableEq

def emptyConnectionGroup : ConnectionGroup := { batches := [] }

/-- A DirectDiscretizationConnection: the elementary forward connection
consumed by the inverse constructor. -/
structure DirectConnection where
  from_discr : Discretization
  to_discr : Discretization
  groups : List ConnectionGroup
deriving DecidableEq

/-- The constructed L2ProjectionInverseDiscretizationConnection in the
elementary (non-chained) case: it wraps the forward connection and swaps
the discretizations (lines 68-79 of the source). -/
structure L2Inverse where
  conn : DirectConnection
  from_discr : Discretization
  to_discr : Discretization
  is_surjective : Bool
deriving DecidableEq

/-- Validation predicate of the elementary constructor: equal dimensions
and an orthonormal basis on every target group. -/
def validElementary (conn : DirectConnection) : Prop :=
  conn.from_discr.dim = conn.to_discr.dim
    ∧ ∀ g ∈ conn.to_discr.groups, g.is_orthonormal_basis = true

instance (conn : DirectConnection) : Decidable (validElementary conn) := by
  unfold validElementary
  infer_instance

/-- The record built by a successful elementary construction. -/
def mkInverse (conn : DirectConnection) (is_surj : Bool) : L2Inverse :=
  { conn := conn, from_discr := conn.to_discr, to_discr := conn.from_discr,
    is_surjective := is_surj }

/-- The __init__ body of the elementary case: the two RuntimeError
checks, in source order, then the wrapping with swapped discretizations.
A failure happens before any attribute is assigned, so the error value
carries no connection state. -/
def elementaryInverse (conn : DirectConnection) (is_surj : Bool) :
    Except String L2Inverse :=
  if conn.from_discr.dim ≠ conn.to_discr.dim then
    Except.error "cannot transport from face to element"
  else if ¬ (conn.to_discr.groups.all (fun g => g.is_orthonormal_basis)) then
    Except.error "to_discr must have an orthonormal basis"
  else
    Except.ok (mkInverse conn is_surj)

/-- Any connection value that can reach the constructor dispatch:
a DirectDiscretizationConnection, a ChainedDiscretizationConnection
(holding its list of links), or an already constructed inverse. -/
inductive AnyConnection where
  | direct : DirectConnection → AnyConnection
  | chainedConn : List AnyConnection → AnyConnection
  | l2inverse : L2Inverse → AnyConnection

mutual

/-- The __new__ dispatch (lines 53-66): a direct connection is wrapped
elementarily (running the __init__ checks); a chained connection with no
links is returned unchanged; a chained connection with links has its
link list processed as a raw sequence; anything else is iterated as a
sequence, which fails for a non-sequence value. -/
def invertConnection (is_surj : Bool) : AnyConnection → Except String AnyConnection
  | AnyConnection.direct c =>
      (elementaryInverse c is_surj).map AnyConnection.l2inverse
  | AnyConnection.chainedConn [] => Except.ok (AnyConnection.chainedConn [])
  | AnyConnection.chainedConn (c :: cs) =>
      (invertSequence is_surj (c :: cs)).map AnyConnection.chainedConn
  | AnyConnection.l2inverse _ => Except.error "object is not iterable"

/-- The raw-sequence branch (lines 61-66): iterate the links in reversed
order, invert each recursively, and collect into a chained connection;
the first failure (in reversed iteration order) aborts. -/
def invertSequence (is_surj : Bool) : List AnyConnection → Except String (List AnyConnection)
  | [] => Except.ok []
  | c :: cs => do
      let rest ← invertSequence is_surj cs
      let ic ← invertConnection is_surj c
      Except.ok (rest ++ [ic])

end

/-! ## Scaled-weight computation (_batch_weights, lines 81-119)

The execution context (array context) is modelled by its identity, a
natural number; actx.freeze(actx.from_numpy(x)) is modelled as tagging
the values with the identity of the freezing context. -/

/-- An array frozen by an execution context. -/
structure FrozenArray where
  ctxId : Nat
  values : List ℚ
deriving DecidableEq

/-- Column j of a numpy array stored in (rows, cols) layout. -/
def runColumn (run : List (List ℚ)) (j : Nat) : List ℚ :=
  run.map (fun row => row.getD j 0)

/-- Dot product of two rows (numpy matmul inner loop). -/
def dotRow (xs ys : List ℚ) : ℚ :=
  (List.zipWith (fun a b => a * b) xs ys).sum

/-- Entry (i, b) of jac[iaxis] = matrices[iaxis] @ result_unit_nodes.T:
row i of the iaxis-th differentiation matrix dotted with row b of
result_unit_nodes (line 114). -/
def jacAt (grp : ElementGroup) (run : List (List ℚ)) (iaxis i b : Nat) : ℚ :=
  dotRow ((grp.diffMatrices.getD iaxis []).getD i []) (run.getD b [])

/-- The det helper of _batch_weights at one node (lines 95-103): build
one grade-1 multivector per axis from row i of that axis's Jacobian,
wedge them with functools.reduce, and take the absolute value of the
top-grade (pseudoscalar) coefficient, which is what the Euclidean scalar
product against the pseudoscalar extracts up to the sign removed by abs.
The source allocates the axis array with the parent discretization
dimension and fills grp.dim axes; as in meshmode every group of a
discretization shares its dimension, the embedding uses grp.dim. -/
def detAtNode (grp : ElementGroup) (run : List (List ℚ)) (i : Nat) : ℚ :=
  |mvReduce ((List.finRange grp.dim).map
      (fun a => mvVector (fun b : Fin grp.dim => jacAt grp run a.val i b.val)))
    Finset.univ|

/-- The scaled weight vector of one batch: det(jac) * grp.weights,
elementwise over the nnodes = grp.nunit_dofs nodes (line 117). -/
def batchWeightValues (grp : ElementGroup) (batch : InterpolationBatch) : List ℚ :=
  (List.range grp.nunit_dofs).map
    (fun i => detAtNode grp batch.result_unit_nodes i * grp.weights.getD i 0)

/-- The weights dictionary of _batch_weights (lines 105-119): keys
(igrp, ibatch) with igrp enumerating self.to_discr.groups (the parent
discretization) and ibatch enumerating self.conn.groups[igrp].batches;
each entry is frozen under the computing context. -/
def batch_weights_compute (inv : L2Inverse) (ctx : Nat) :
    List ((Nat × Nat) × FrozenArray) :=
  (List.range inv.to_discr.groups.length).flatMap (fun igrp =>
    (List.range ((inv.conn.groups.getD igrp emptyConnectionGroup).batches.length)).map
      (fun ibatch =>
        ((igrp, ibatch),
          FrozenArray.mk ctx
            (batchWeightValues (inv.to_discr.groups.getD igrp emptyGroup)
              ((inv.conn.groups.getD igrp emptyConnectionGroup).batches.getD
                ibatch emptyBatch)))))

/-- The keyed_memoize_method cache of _batch_weights: the key function
(fun actx => ()) is constant, so the per-connection cache holds at most
one dictionary, reused for every later call whatever its context. -/
def batch_weights (inv : L2Inverse) (ctx : Nat)
    (cache : Option (List ((Nat × Nat) × FrozenArray))) :
    (List ((Nat × Nat) × FrozenArray)) × Option (List ((Nat × Nat) × FrozenArray)) :=
  match cache with
  | some w => (w, some w)
  | none =>
      let w := batch_weights_compute inv ctx
      (w, some w)

/-! ## Projection stage (__call__, lines 121-227)

Basis functions live outside the source file; they are passed as an
evaluation environment bEval mapping a basis-function id and a node
coordinate vector to the function value. -/

/-- A DOFArray: per-group (nelements, nnodes) arrays together with the
array context that owns them. -/
structure DOFArray where
  ctxId : Nat
  data : List (List (List ℚ))
deriving DecidableEq

/-- Entry (k, node) of the basis tabulation matrix of one batch (lines
192-195): basis function k of the source group sgrp evaluated at column
node of batch.result_unit_nodes. -/
def tabulationEntry (bEval : Nat → List ℚ → ℚ) (sgrp : ElementGroup)
    (batch : InterpolationBatch) (k node : Nat) : ℚ :=
  bEval (sgrp.basisIds.getD k 0) (runColumn batch.result_unit_nodes node)

/-- The quadrature sum of the kproj kernel body for one element pair and
one basis index: sum over i_quad < n_to_nodes of
ary[from_el, i_quad] * basis_tabulation[ibasis, i_quad] * weights[i_quad]
(lines 139-145). -/
def kprojInner (bEval : Nat → List ℚ → ℚ) (sgrp : ElementGroup)
    (batch : InterpolationBatch) (fieldArr : List (List ℚ)) (wvals : List ℚ)
    (nToNodes : Nat) (fe k : Nat) : ℚ :=
  ((List.range nToNodes).map (fun q =>
    ((fieldArr.getD fe []).getD q 0) * tabulationEntry bEval sgrp batch k q
      * wvals.getD q 0)).sum

/-- One read-modify-write of the kproj kernel: add the quadrature sums
of the pair (fe, te) into row te of the result, for every basis index
below n_to_nodes. -/
def kprojStep (bEval : Nat → List ℚ → ℚ) (sgrp : ElementGroup)
    (batch : InterpolationBatch) (fieldArr : List (List ℚ)) (wvals : List ℚ)
    (nToNodes : Nat) (res : Nat → Nat → ℚ) (fe te : Nat) : Nat → Nat → ℚ :=
  fun e k =>
    if e = te ∧ k < nToNodes then
      res e k + kprojInner bEval sgrp batch fieldArr wvals nToNodes fe k
    else res e k

/-- The kproj kernel of one batch: fold the read-modify-write over the
paired (from_element_indices, to_element_indices) entries. -/
def kprojBatch (bEval : Nat → List ℚ → ℚ) (sgrp : ElementGroup)
    (batch : InterpolationBatch) (fieldArr : List (List ℚ)) (wvals : List ℚ)
    (nToNodes : Nat) (res : Nat → Nat → ℚ) : Nat → Nat → ℚ :=
  (List.zip batch.from_element_indices batch.to_element_indices).foldl
    (fun r p => kprojStep bEval sgrp batch fieldArr wvals nToNodes r p.1 p.2)
    res

/-- The fused kernel of one connection group (lines 169-224): all
batches of conn.groups[igrp] accumulate in order into one result buffer
of shape (to_discr.groups[igrp].nelements, to_discr.groups[igrp].nunit_dofs)
starting from zeros; each batch reads the input slice of the group
from_discr.groups[batch.from_group_index] and the cached scaled weights
of (igrp, ibatch). -/
def groupCoefficients (inv : L2Inverse) (bEval : Nat → List ℚ → ℚ)
    (ary : DOFArray) (wdict : List ((Nat × Nat) × FrozenArray))
    (igrp : Nat) : Nat → Nat → ℚ :=
  let cgrp := inv.conn.groups.getD igrp emptyConnectionGroup
  let nToNodes := (inv.to_discr.groups.getD igrp emptyGroup).nunit_dofs
  (List.range cgrp.batches.length).foldl
    (fun res ibatch =>
      let batch := cgrp.batches.getD ibatch emptyBatch
      let sgrp := inv.from_discr.groups.getD batch.from_group_index emptyGroup
      let fieldArr := ary.data.getD sgrp.index []
      let wvals := ((wdict.lookup (igrp, ibatch)).getD
        { ctxId := 0, values := [] }).values
      kprojBatch bEval sgrp batch fieldArr wvals nToNodes res)
    (fun _ _ => 0)

/-- Materialized per-group modal coefficient array (the result buffer
returned by call_loopy, shaped by lines 221-222). -/
def groupCoefficientsArray (inv : L2Inverse) (bEval : Nat → List ℚ → ℚ)
    (ary : DOFArray) (wdict : List ((Nat × Nat) × FrozenArray))
    (igrp : Nat) : List (List ℚ) :=
  let tgrp := inv.to_discr.groups.getD igrp emptyGroup
  (List.range tgrp.nelements).map (fun e =>
    (List.range tgrp.nunit_dofs).map (fun k =>
      groupCoefficients inv bEval ary wdict igrp e k))

/-- group_idx_to_c: one coefficient array per connection group. -/
def projectionStage (inv : L2Inverse) (bEval : Nat → List ℚ → ℚ)
    (ary : DOFArray) (wdict : List ((Nat × Nat) × FrozenArray)) :
    List (List (List ℚ)) :=
  (List.range inv.conn.groups.length).map
    (groupCoefficientsArray inv bEval ary wdict)

/-! ## Evaluation stage (keval and vandermonde_matrix, lines 229-275) -/

/-- The structural identity of a group: its basis and its unit node set. -/
abbrev DiscrKey := List Nat × List (List ℚ)

/-- The Vandermonde cache attached to an execution context. -/
abbrev VdmCache := List (DiscrKey × List (List ℚ))

/-- grp.discretization_key(): the structural identity of a group used as
Vandermonde cache key, i.e. its basis and unit node set. -/
def discretization_key (g : ElementGroup) : DiscrKey :=
  (g.basisIds, g.unitNodes)

/-- modepy.vandermonde(functions, nodes) built from a cache key: entry
(idof, ibasis) is basis function ibasis evaluated at node idof (one row
per node column of the (dim, nnodes) node array). -/
def vdmOfKey (bEval : Nat → List ℚ → ℚ) (key : DiscrKey) :
    List (List ℚ) :=
  (List.range ((key.2.getD 0 []).length)).map (fun idof =>
    (List.range key.1.length).map (fun ibasis =>
      bEval (key.1.getD ibasis 0) (runColumn key.2 idof)))

/-- vandermonde_matrix(grp) (lines 253-262), before memoization. -/
def vandermonde_matrix (bEval : Nat → List ℚ → ℚ) (g : ElementGroup) :
    List (List ℚ) :=
  vdmOfKey bEval (discretization_key g)

/-- The keval kernel (lines 233-251):
result[iel, idof] = sum(ibasis, vdm[idof, ibasis] * coefficients[iel, ibasis])
with iel, idof, ibasis bounded by the shape of the coefficient array. -/
def kevalResult (vdm : List (List ℚ)) (coeff : List (List ℚ)) :
    List (List ℚ) :=
  (List.range coeff.length).map (fun iel =>
    (List.range ((coeff.getD 0 []).length)).map (fun idof =>
      ((List.range ((coeff.getD 0 []).length)).map (fun ib =>
        ((vdm.getD idof []).getD ib 0) * ((coeff.getD iel []).getD ib 0))).sum))

/-- The keyed_memoize_in cache attached to the array context for
vandermonde_matrix, keyed by discretization_key: look up, else compute,
append and report that a computation happened. -/
def vdmLookupOrCompute (bEval : Nat → List ℚ → ℚ) (cache : VdmCache)
    (g : ElementGroup) :
    List (List ℚ) × VdmCache × Bool :=
  match cache.lookup (discretization_key g) with
  | some m => (m, cache, false)
  | none =>
      let m := vandermonde_matrix bEval g
      (m, cache ++ [(discretization_key g, m)], true)

/-- One step of the evaluation loop: fetch (or build and memoize) the
group's Vandermonde matrix and run keval on c[grp.index], appending the
nodal result; the third component traces the keys whose matrix was
computed during this call. -/
def evalStep (bEval : Nat → List ℚ → ℚ) (c : List (List (List ℚ)))
    (acc : List (List (List ℚ)) × VdmCache × List DiscrKey)
    (grp : ElementGroup) :
    List (List (List ℚ)) × VdmCache × List DiscrKey :=
  let step := vdmLookupOrCompute bEval acc.2.1 grp
  (acc.1 ++ [kevalResult step.1 (c.getD grp.index [])],
    step.2.1,
    acc.2.2 ++ (if step.2.2 then [discretization_key grp] else []))

/-- The evaluation loop (lines 264-275) over every group of to_discr. -/
def evalStage (inv : L2Inverse) (bEval : Nat → List ℚ → ℚ)
    (c : List (List (List ℚ))) (cache : VdmCache) :
    List (List (List ℚ)) × VdmCache × List DiscrKey :=
  inv.to_discr.groups.foldl (evalStep bEval c) ([], cache, [])

/-! ## Transport operator entry point (__call__, lines 121-126, with the
obj_array_vectorized_n_args broadcast) -/

/-- A value passed to the transport operator: a DOFArray, a numpy object
array of such values (field of fields), or a raw scalar. -/
inductive FieldInput where
  | dof : DOFArray → FieldInput
  | obj : List FieldInput → FieldInput
  | scalar : ℚ → FieldInput

/-- The mutable world of one call: the weight cache attribute of the
connection instance and the Vandermonde cache of the calling array
context. -/
structure CallState where
  wCache : Option (List ((Nat × Nat) × FrozenArray))
  vdmCache : List ((List Nat × List (List ℚ)) × List (List ℚ))

/-- The body of __call__ on a DOFArray: fetch or compute the scaled
weights (possibly populating the connection's cache), build the modal
coefficients, then evaluate through the context's Vandermonde cache. -/
def applyDOF (inv : L2Inverse) (bEval : Nat → List ℚ → ℚ) (a : DOFArray)
    (st : CallState) : DOFArray × CallState :=
  let wres := batch_weights inv a.ctxId st.wCache
  let c := projectionStage inv bEval a wres.1
  let eres := evalStage inv bEval c st.vdmCache
  ({ ctxId := a.ctxId, data := eres.1 },
    { wCache := wres.2, vdmCache := eres.2.1 })

mutual

/-- The decorated __call__: object arrays are broadcast element-wise (in
order, an exception aborting the remaining components but keeping the
cache effects of the already processed ones); a DOFArray runs the
projection; any other value raises TypeError before touching any cache
(line 123-124 precedes every cache access). -/
def connCall (inv : L2Inverse) (bEval : Nat → List ℚ → ℚ) :
    FieldInput → CallState → Except String FieldInput × CallState
  | FieldInput.obj xs, st =>
      match connCallList inv bEval xs st with
      | (Except.ok ys, st2) => (Except.ok (FieldInput.obj ys), st2)
      | (Except.error e, st2) => (Except.error e, st2)
  | FieldInput.dof a, st =>
      let r := applyDOF inv bEval a st
      (Except.ok (FieldInput.dof r.1), r.2)
  | FieldInput.scalar _, st =>
      (Except.error "non-array passed to discretization connection", st)

/-- Broadcast over the components of an object array. -/
def connCallList (inv : L2Inverse) (bEval : Nat → List ℚ → ℚ) :
    List FieldInput → CallState → Except String (List FieldInput) × CallState
  | [], st => (Except.ok [], st)
  | x :: xs, st =>
      match connCall inv bEval x st with
      | (Except.ok y, st2) =>
          match connCallList inv bEval xs st2 with
          | (Except.ok ys, st3) => (Except.ok (y :: ys), st3)
          | (Except.error e, st3) => (Except.error e, st3)
      | (Except.error e, st2) => (Except.error e, st2)

end

/-- Element-wise broadcast of the DOFArray body over a list of arrays,
threading the cache state in order: the behavior the
obj_array_vectorized_n_args decorator produces on an object array all of
whose components are DOFArrays. -/
def broadcastDOF (inv : L2Inverse) (bEval : Nat → List ℚ → ℚ) :
    List DOFArray → CallState → List DOFArray × CallState
  | [], st => ([], st)
  | a :: as, st =>
      let r := applyDOF inv bEval a st
      let rest := broadcastDOF inv bEval as r.2
      (r.1 :: rest.1, rest.2)

/-! ## Index alignment of apply

Every list access performed by _batch_weights, the projection loop and
the evaluation loop, as an explicit in-range predicate; one conjunct per
access site. -/

/-- All indexing performed by apply is in range:
* the weight loop pairs each igrp < len(to_discr.groups) with
  conn.groups[igrp] (line 112);
* the projection loop reads to_discr.groups[igrp] for every
  igrp < len(conn.groups) (line 221);
* every batch reads from_discr.groups[batch.from_group_index]
  (line 173);
* the evaluation loop reads c[grp.index] out of the
  len(conn.groups) per-group coefficient arrays (line 271). -/
def applyIndexingOK (inv : L2Inverse) : Prop :=
  (inv.to_discr.groups.length ≤ inv.conn.groups.length)
  ∧ (∀ igrp, igrp < inv.conn.groups.length →
      igrp < inv.to_discr.groups.length)
  ∧ (∀ igrp, igrp < inv.conn.groups.length →
      ∀ b ∈ (inv.conn.groups.getD igrp emptyConnectionGroup).batches,
        b.from_group_index < inv.from_discr.groups.length)
  ∧ (∀ g ∈ inv.to_discr.groups, g.index < inv.conn.groups.length)

instance (inv : L2Inverse) : Decidable (applyIndexingOK inv) := by
  unfold applyIndexingOK
  infer_instance

/-! ## Concrete fixtures used by witnesses and counterexamples -/

/-- A one-element, one-dof, dimension-1 orthonormal group. -/
def exGroup : ElementGroup :=
  { dim := 1, nelements := 1, nunit_dofs := 1, index := 0,
    basisIds := [0], unitNodes := [[0]], weights := [1],
    diffMatrices := [[[1]]], is_orthonormal_basis := true }

def exDiscr : Discretization := { dim := 1, groups := [exGroup] }

def exBatch : InterpolationBatch :=
  { from_group_index := 0, from_element_indices := [0],
    to_element_indices := [0], result_unit_nodes := [[1]] }

/-- A valid elementary connection on exDiscr with one one-batch group. -/
def exConn : DirectConnection :=
  { from_discr := exDiscr, to_discr := exDiscr,
    groups := [{ batches := [exBatch] }] }

/-- A second valid elementary connection (no groups), distinguishable
from exConn. -/
def exConn2 : DirectConnection :=
  { from_discr := exDiscr, to_discr := exDiscr, groups := [] }

/-- The inverse of exConn. -/
def exInv : L2Inverse := mkInverse exConn false

/-- A dimension-mismatched connection (from 2-dimensional to
1-dimensional). -/
def exBadDimConn : DirectConnection :=
  { from_discr := { dim := 2, groups := [] }, to_discr := exDiscr,
    groups := [] }

/-- A non-orthonormal variant of exGroup. -/
def exGroupNotOrtho : ElementGroup :=
  { dim := 1, nelements := 1, nunit_dofs := 1, index := 0,
    basisIds := [0], unitNodes := [[0]], weights := [1],
    diffMatrices := [[[1]]], is_orthonormal_basis := false }

/-- A connection whose target basis is not orthonormal. -/
def exBadBasisConn : DirectConnection :=
  { from_discr := exDiscr,
    to_discr := { dim := 1, groups := [exGroupNotOrtho] },
    groups := [] }

/-- A simple basis-function environment: function id n is the polynomial
taking a point to the n-th power of its first coordinate. -/
def exEval : Nat → List ℚ → ℚ :=
  fun n coords => (coords.getD 0 0) ^ n

end L2Proj

namespace L2Proj

theorem inversions_empty_left {d : Nat} (u : Finset (Fin d)) :
    inversions (∅ : Finset (Fin d)) u = 0 := by
  simp [inversions]

theorem inversions_empty_right {d : Nat} (t : Finset (Fin d)) :
    inversions t (∅ : Finset (Fin d)) = 0 := by
  simp [inversions]

theorem epsSign_empty_left {d : Nat} (u : Finset (Fin d)) :
    epsSign (∅ : Finset (Fin d)) u = 1 := by
  simp [epsSign, inversions_empty_left]

theorem epsSign_empty_right {d : Nat} (t : Finset (Fin d)) :
    epsSign t (∅ : Finset (Fin d)) = 1 := by
  simp [epsSign, inversions_empty_right]

theorem inversions_union_left {d : Nat} {t₁ t₂ : Finset (Fin d)}
    (h : Disjoint t₁ t₂) (u : Finset (Fin d)) :
    inversions (t₁ ∪ t₂) u = inversions t₁ u + inversions t₂ u := by
  simp [inversions, Finset.sum_union h]

theorem inversions_union_right {d : Nat} (t : Finset (Fin d))
    {u₁ u₂ : Finset (Fin d)} (h : Disjoint u₁ u₂) :
    inversions t (u₁ ∪ u₂) = inversions t u₁ + inversions t u₂ := by
  unfold inversions
  rw [← Finset.sum_add_distrib]
  refine Finset.sum_congr rfl fun i _ => ?_
  rw [Finset.filter_union]
  exact Finset.card_union_of_disjoint
    (Finset.disjoint_filter_filter h)

theorem epsSign_union_left {d : Nat} {t₁ t₂ : Finset (Fin d)}
    (h : Disjoint t₁ t₂) (u : Finset (Fin d)) :
    epsSign (t₁ ∪ t₂) u = epsSign t₁ u * epsSign t₂ u := by
  simp [epsSign, inversions_union_left h, pow_add]

theorem epsSign_union_right {d : Nat} (t : Finset (Fin d))
    {u₁ u₂ : Finset (Fin d)} (h : Disjoint u₁ u₂) :
    epsSign t (u₁ ∪ u₂) = epsSign t u₁ * epsSign t u₂ := by
  simp [epsSign, inversions_union_right t h, pow_add]

theorem inversions_add_inversions {d : Nat} {t u : Finset (Fin d)}
    (h : Disjoint t u) :
    inversions t u + inversions u t = t.card * u.card := by
  unfold inversions
  have ht : ∀ i ∈ t, (u.filter (fun j => j < i)).card
      = ∑ j ∈ u, if j < i then 1 else 0 := by
    intro i _
    rw [Finset.card_filter]
  have hu : ∀ j ∈ u, (t.filter (fun i => i < j)).card
      = ∑ i ∈ t, if i < j then 1 else 0 := by
    intro j _
    rw [Finset.card_filter]
  rw [Finset.sum_congr rfl ht, Finset.sum_congr rfl hu]
  have h2 : (∑ j ∈ u, ∑ i ∈ t, if i < j then (1 : ℕ) else 0)
      = ∑ i ∈ t, ∑ j ∈ u, if i < j then 1 else 0 := Finset.sum_comm
  rw [h2, ← Finset.sum_add_distrib]
  have : ∀ i ∈ t, ((∑ j ∈ u, if j < i then 1 else 0)
      + ∑ j ∈ u, if i < j then 1 else 0) = u.card := by
    intro i hi
    rw [← Finset.sum_add_distrib]
    have : ∀ j ∈ u, ((if j < i then 1 else 0) + if i < j then 1 else 0) = 1 := by
      intro j hj
      have hij : i ≠ j := fun hij => (Finset.disjoint_left.mp h hi) (hij ▸ hj)
      rcases lt_or_gt_of_ne hij with hlt | hgt
      · simp [hlt, not_lt_of_gt hlt]
      · simp [hgt, not_lt_of_gt hgt]
    rw [Finset.sum_congr rfl this, Finset.sum_const, smul_eq_mul, mul_one]
  rw [Finset.sum_congr rfl this, Finset.sum_const, smul_eq_mul]

theorem epsSign_mul_comm {d : Nat} {t u : Finset (Fin d)} (h : Disjoint t u) :
    epsSign t u * epsSign u t = (-1 : ℚ) ^ (t.card * u.card) := by
  rw [epsSign, epsSign, ← pow_add, inversions_add_inversions h]

theorem epsSign_singleton {d : Nat} (i j : Fin d) :
    epsSign ({i} : Finset (Fin d)) {j} = if j < i then -1 else 1 := by
  unfold epsSign inversions
  by_cases hji : j < i
  · simp [hji, Finset.filter_singleton]
  · simp [hji, Finset.filter_singleton]

theorem blade_apply_self {d : Nat} (u : Finset (Fin d)) : blade u u = 1 := by
  simp [blade]

theorem blade_apply_ne {d : Nat} {t u : Finset (Fin d)} (h : t ≠ u) :
    blade u t = 0 := by
  simp [blade, h]

/-- Product of two basis blades: zero unless disjoint, otherwise the
signed union blade. -/
theorem blade_outer_blade {d : Nat} (u w : Finset (Fin d)) :
    mvOuter (blade u) (blade w)
      = if Disjoint u w then epsSign u w • blade (u ∪ w) else 0 := by
  funext s
  unfold mvOuter
  by_cases hu : u ⊆ s
  · rw [Finset.sum_eq_single_of_mem u (Finset.mem_powerset.mpr hu)
      (fun b _ hb => by simp [blade, hb])]
    rw [blade_apply_self, mul_one]
    by_cases hw : s \ u = w
    · have hdisj : Disjoint u w := hw ▸ Finset.disjoint_sdiff
      have hcup : u ∪ w = s := by
        rw [← hw, Finset.union_sdiff_of_subset hu]
      rw [hw, blade_apply_self, mul_one, if_pos hdisj]
      simp [Pi.smul_apply, blade, hcup.symm]
    · rw [blade_apply_ne hw, mul_zero]
      by_cases hdisj : Disjoint u w
      · rw [if_pos hdisj]
        have hs : s ≠ u ∪ w := by
          intro hs
          exact hw (by rw [hs, Finset.union_sdiff_cancel_left hdisj])
        simp [Pi.smul_apply, blade, hs]
      · rw [if_neg hdisj]
        rfl
  · rw [Finset.sum_eq_zero (fun t ht => ?_)]
    · by_cases hdisj : Disjoint u w
      · rw [if_pos hdisj]
        have hs : s ≠ u ∪ w := by
          intro hs
          exact hu (hs ▸ Finset.subset_union_left)
        simp [Pi.smul_apply, blade, hs]
      · rw [if_neg hdisj]
        rfl
    · have : t ≠ u := by
        intro h
        exact hu (h ▸ Finset.mem_powerset.mp ht)
      simp [blade, this]

theorem mvOuter_add_left {d : Nat} (a b c : MV d) :
    mvOuter (a + b) c = mvOuter a c + mvOuter b c := by
  funext s
  show (∑ t ∈ s.powerset, epsSign t (s \ t) * (a + b) t * c (s \ t))
      = (∑ t ∈ s.powerset, epsSign t (s \ t) * a t * c (s \ t))
      + ∑ t ∈ s.powerset, epsSign t (s \ t) * b t * c (s \ t)
  rw [← Finset.sum_add_distrib]
  refine Finset.sum_congr rfl fun t _ => ?_
  simp only [Pi.add_apply]
  ring

theorem mvOuter_add_right {d : Nat} (a b c : MV d) :
    mvOuter a (b + c) = mvOuter a b + mvOuter a c := by
  funext s
  show (∑ t ∈ s.powerset, epsSign t (s \ t) * a t * (b + c) (s \ t))
      = (∑ t ∈ s.powerset, epsSign t (s \ t) * a t * b (s \ t))
      + ∑ t ∈ s.powerset, epsSign t (s \ t) * a t * c (s \ t)
  rw [← Finset.sum_add_distrib]
  refine Finset.sum_congr rfl fun t _ => ?_
  simp only [Pi.add_apply]
  ring

theorem mvOuter_smul_left {d : Nat} (q : ℚ) (a b : MV d) :
    mvOuter (q • a) b = q • mvOuter a b := by
  funext s
  simp [mvOuter, Finset.mul_sum]
  refine Finset.sum_congr rfl fun t _ => by ring

theorem mvOuter_smul_right {d : Nat} (q : ℚ) (a b : MV d) :
    mvOuter a (q • b) = q • mvOuter a b := by
  funext s
  simp [mvOuter, Finset.mul_sum]
  refine Finset.sum_congr rfl fun t _ => by ring

theorem mvOuter_zero_left {d : Nat} (b : MV d) : mvOuter 0 b = 0 := by
  funext s
  show (∑ t ∈ s.powerset, epsSign t (s \ t) * (0 : MV d) t * b (s \ t)) = 0
  rw [Finset.sum_eq_zero]
  intro t _
  show epsSign t (s \ t) * 0 * b (s \ t) = 0
  ring

theorem mvOuter_zero_right {d : Nat} (a : MV d) : mvOuter a 0 = 0 := by
  funext s
  show (∑ t ∈ s.powerset, epsSign t (s \ t) * a t * (0 : MV d) (s \ t)) = 0
  rw [Finset.sum_eq_zero]
  intro t _
  show epsSign t (s \ t) * a t * 0 = 0
  ring

theorem mvOuter_sum_left {d : Nat} {α : Type} [DecidableEq α] (s : Finset α)
    (f : α → MV d) (b : MV d) :
    mvOuter (∑ x ∈ s, f x) b = ∑ x ∈ s, mvOuter (f x) b := by
  induction s using Finset.induction_on with
  | empty => simp [mvOuter_zero_left]
  | insert h ih =>
      rw [Finset.sum_insert h, mvOuter_add_left, ih, Finset.sum_insert h]

theorem mvOuter_sum_right {d : Nat} {α : Type} [DecidableEq α] (s : Finset α)
    (f : α → MV d) (a : MV d) :
    mvOuter a (∑ x ∈ s, f x) = ∑ x ∈ s, mvOuter a (f x) := by
  induction s using Finset.induction_on with
  | empty => simp [mvOuter_zero_right]
  | insert h ih =>
      rw [Finset.sum_insert h, mvOuter_add_right, ih, Finset.sum_insert h]

/-- Every multivector is the signed sum of its blades. -/
theorem mv_eq_sum_blade {d : Nat} (m : MV d) :
    m = ∑ u ∈ (Finset.univ : Finset (Finset (Fin d))), m u • blade u := by
  funext t
  rw [Finset.sum_apply]
  rw [Finset.sum_eq_single_of_mem t (Finset.mem_univ t)
    (fun u _ hu => by simp [blade, Ne.symm hu])]
  simp [blade]

/-- Associativity on blades. -/
theorem blade_assoc {d : Nat} (u v w : Finset (Fin d)) :
    mvOuter (mvOuter (blade u) (blade v)) (blade w)
      = mvOuter (blade u) (mvOuter (blade v) (blade w)) := by
  rw [blade_outer_blade, blade_outer_blade]
  by_cases huv : Disjoint u v
  · by_cases hvw : Disjoint v w
    · rw [if_pos huv, if_pos hvw, mvOuter_smul_left, mvOuter_smul_right,
        blade_outer_blade, blade_outer_blade]
      by_cases huw : Disjoint u w
      · have h1 : Disjoint (u ∪ v) w := Finset.disjoint_union_left.mpr ⟨huw, hvw⟩
        have h2 : Disjoint u (v ∪ w) := Finset.disjoint_union_right.mpr ⟨huv, huw⟩
        rw [if_pos h1, if_pos h2, smul_smul, smul_smul,
          epsSign_union_left huv w, epsSign_union_right u hvw,
          Finset.union_assoc]
        ring_nf
      · have h1 : ¬ Disjoint (u ∪ v) w := fun h =>
          huw (Finset.disjoint_union_left.mp h).1
        have h2 : ¬ Disjoint u (v ∪ w) := fun h =>
          huw (Finset.disjoint_union_right.mp h).2
        rw [if_neg h1, if_neg h2, smul_zero, smul_zero]
    · rw [if_pos huv, if_neg hvw, mvOuter_smul_left, blade_outer_blade,
        mvOuter_zero_right]
      have h1 : ¬ Disjoint (u ∪ v) w := fun h =>
        hvw (Finset.disjoint_union_left.mp h).2
      rw [if_neg h1, smul_zero]
  · rw [if_neg huv, mvOuter_zero_left]
    by_cases hvw : Disjoint v w
    · rw [if_pos hvw, mvOuter_smul_right, blade_outer_blade]
      have h2 : ¬ Disjoint u (v ∪ w) := fun h =>
        huv (Finset.disjoint_union_right.mp h).1
      rw [if_neg h2, smul_zero]
    · rw [if_neg hvw, mvOuter_zero_right]

/-- Associativity of the outer product with a blade in middle and right
position, for arbitrary left factor. -/
theorem mvOuter_blade_assoc {d : Nat} (a : MV d) (v w : Finset (Fin d)) :
    mvOuter (mvOuter a (blade v)) (blade w)
      = mvOuter a (mvOuter (blade v) (blade w)) := by
  rw [mv_eq_sum_blade a]
  rw [mvOuter_sum_left, mvOuter_sum_left, mvOuter_sum_left]
  refine Finset.sum_congr rfl fun u _ => ?_
  rw [mvOuter_smul_left, mvOuter_smul_left, mvOuter_smul_left, blade_assoc]

/-- Associativity of the outer product. -/
theorem mvOuter_assoc {d : Nat} (a b c : MV d) :
    mvOuter (mvOuter a b) c = mvOuter a (mvOuter b c) := by
  rw [mv_eq_sum_blade b, mv_eq_sum_blade c]
  simp only [mvOuter_sum_left, mvOuter_sum_right, mvOuter_smul_left,
    mvOuter_smul_right, Finset.smul_sum]
  refine Finset.sum_congr rfl fun v _ => ?_
  refine Finset.sum_congr rfl fun w _ => ?_
  rw [mvOuter_blade_assoc a w v]

theorem mvOuter_one_left {d : Nat} (a : MV d) : mvOuter (mvOne d) a = a := by
  conv_lhs => rw [mv_eq_sum_blade a]
  rw [mvOuter_sum_right]
  conv_rhs => rw [mv_eq_sum_blade a]
  refine Finset.sum_congr rfl fun u _ => ?_
  rw [mvOuter_smul_right, mvOne, blade_outer_blade,
    if_pos (Finset.disjoint_empty_left u), epsSign_empty_left,
    Finset.empty_union, one_smul]

theorem mvOuter_one_right {d : Nat} (a : MV d) : mvOuter a (mvOne d) = a := by
  conv_lhs => rw [mv_eq_sum_blade a]
  rw [mvOuter_sum_left]
  conv_rhs => rw [mv_eq_sum_blade a]
  refine Finset.sum_congr rfl fun u _ => ?_
  rw [mvOuter_smul_left, mvOne, blade_outer_blade,
    if_pos (Finset.disjoint_empty_right u), epsSign_empty_right,
    Finset.union_empty, one_smul]

theorem mvVector_add {d : Nat} (x y : Fin d → ℚ) :
    mvVector (x + y) = mvVector x + mvVector y := by
  unfold mvVector
  rw [← Finset.sum_add_distrib]
  refine Finset.sum_congr rfl fun i _ => ?_
  rw [Pi.add_apply, add_smul]

theorem mvVector_smul {d : Nat} (q : ℚ) (x : Fin d → ℚ) :
    mvVector (q • x) = q • mvVector x := by
  unfold mvVector
  rw [Finset.smul_sum]
  refine Finset.sum_congr rfl fun i _ => ?_
  rw [Pi.smul_apply, smul_eq_mul, mul_smul]

/-- A vector wedged with itself vanishes. -/
theorem mvOuter_vector_self {d : Nat} (x : Fin d → ℚ) :
    mvOuter (mvVector x) (mvVector x) = 0 := by
  unfold mvVector
  rw [mvOuter_sum_left]
  rw [Finset.sum_congr rfl (fun i _ => mvOuter_smul_left _ _ _)]
  rw [Finset.sum_congr rfl (fun i _ => congrArg (fun z => x i • z)
    (mvOuter_sum_right Finset.univ _ _))]
  rw [Finset.sum_congr rfl (fun i _ => congrArg (fun z => x i • z)
    (Finset.sum_congr rfl (fun j _ => mvOuter_smul_right _ _ _)))]
  simp only [Finset.smul_sum, ← Finset.sum_product']
  apply Finset.sum_ninvolution (fun p => (p.2, p.1))
  · intro p
    rcases p with ⟨i, j⟩
    by_cases hij : i = j
    · subst hij
      rw [blade_outer_blade, if_neg (by simp)]
      simp
    · rw [blade_outer_blade, blade_outer_blade,
        if_pos (Finset.disjoint_singleton.mpr hij),
        if_pos (Finset.disjoint_singleton.mpr (Ne.symm hij))]
      have hpair : ({j} ∪ {i} : Finset (Fin d)) = {i} ∪ {j} :=
        Finset.union_comm _ _
      have hsign : epsSign ({j} : Finset (Fin d)) {i}
          = - epsSign ({i} : Finset (Fin d)) {j} := by
        rw [epsSign_singleton, epsSign_singleton]
        rcases lt_or_gt_of_ne hij with hlt | hgt
        · simp [hlt, not_lt_of_gt hlt]
        · simp [hgt, not_lt_of_gt hgt]
      rw [hpair, hsign]
      simp only [smul_smul]
      rw [← add_smul]
      have : x i * (x j * epsSign ({i} : Finset (Fin d)) {j})
          + x j * (x i * - epsSign ({i} : Finset (Fin d)) {j}) = 0 := by ring
      rw [this, zero_smul]
  · intro p hp
    intro hcontra
    apply hp
    have : p.1 = p.2 := congrArg Prod.snd hcontra.symm ▸ rfl
    rcases p with ⟨i, j⟩
    have hij : j = i := congrArg Prod.fst hcontra
    subst hij
    rw [blade_outer_blade, if_neg (by simp)]
    simp
  · intro p
    exact Finset.mem_product.mpr ⟨Finset.mem_univ _, Finset.mem_univ _⟩
  · intro p
    rfl

/-- Two vectors anticommute under the outer product. -/
theorem mvOuter_vector_swap {d : Nat} (x y : Fin d → ℚ) :
    mvOuter (mvVector x) (mvVector y) = - mvOuter (mvVector y) (mvVector x) := by
  have h := mvOuter_vector_self (x + y)
  rw [mvVector_add, mvOuter_add_left, mvOuter_add_right, mvOuter_add_right,
    mvOuter_vector_self, mvOuter_vector_self, zero_add, add_zero] at h
  exact eq_neg_of_add_eq_zero_left h

theorem wedgeL_nil {d : Nat} : wedgeL ([] : List (Fin d → ℚ)) = mvOne d := rfl

theorem foldl_mvOuter_from {d : Nat} (l : List (Fin d → ℚ)) :
    ∀ a : MV d, (l.map mvVector).foldl mvOuter a = mvOuter a (wedgeL l) := by
  induction l with
  | nil =>
      intro a
      simp [wedgeL, mvOuter_one_right]
  | cons x l ih =>
      intro a
      show (l.map mvVector).foldl mvOuter (mvOuter a (mvVector x)) = _
      rw [ih (mvOuter a (mvVector x)), mvOuter_assoc]
      have hx : wedgeL (x :: l) = mvOuter (mvVector x) (wedgeL l) := by
        show (l.map mvVector).foldl mvOuter (mvOuter (mvOne d) (mvVector x)) = _
        rw [mvOuter_one_left, ih (mvVector x)]
      rw [hx]

theorem wedgeL_cons {d : Nat} (x : Fin d → ℚ) (l : List (Fin d → ℚ)) :
    wedgeL (x :: l) = mvOuter (mvVector x) (wedgeL l) := by
  show (l.map mvVector).foldl mvOuter (mvOuter (mvOne d) (mvVector x)) = _
  rw [mvOuter_one_left, foldl_mvOuter_from l (mvVector x)]

theorem wedgeL_singleton {d : Nat} (x : Fin d → ℚ) :
    wedgeL [x] = mvVector x := by
  rw [wedgeL_cons, wedgeL_nil, mvOuter_one_right]

theorem wedgeL_append {d : Nat} (l l₂ : List (Fin d → ℚ)) :
    wedgeL (l ++ l₂) = mvOuter (wedgeL l) (wedgeL l₂) := by
  unfold wedgeL
  rw [List.map_append, List.foldl_append]
  exact foldl_mvOuter_from l₂ _

/-- functools.reduce over the mapped vectors agrees with the fold from 1. -/
theorem mvReduce_map_eq_wedgeL {d : Nat} (l : List (Fin d → ℚ)) :
    mvReduce (l.map mvVector) = wedgeL l := by
  cases l with
  | nil => rfl
  | cons x l =>
      show (l.map mvVector).foldl mvOuter (mvVector x) = _
      rw [foldl_mvOuter_from l (mvVector x), wedgeL_cons]

/-- Moving a single vector across a wedge of n vectors picks up (-1)^n. -/
theorem mvOuter_vector_wedgeL_comm {d : Nat} (x : Fin d → ℚ) :
    ∀ l : List (Fin d → ℚ),
      mvOuter (mvVector x) (wedgeL l)
        = ((-1 : ℚ) ^ l.length) • mvOuter (wedgeL l) (mvVector x) := by
  intro l
  induction l using List.reverseRecOn with
  | nil =>
      rw [wedgeL_nil, mvOuter_one_left, mvOuter_one_right, List.length_nil,
        pow_zero, one_smul]
  | append_singleton l y ih =>
      rw [wedgeL_append, wedgeL_singleton, ← mvOuter_assoc, ih,
        mvOuter_smul_left, mvOuter_assoc, mvOuter_vector_swap x y]
      have : mvOuter (wedgeL l) (- mvOuter (mvVector y) (mvVector x))
          = - mvOuter (wedgeL l) (mvOuter (mvVector y) (mvVector x)) := by
        have h := mvOuter_smul_right (-1 : ℚ) (wedgeL l)
          (mvOuter (mvVector y) (mvVector x))
        simpa using h
      rw [this, ← mvOuter_assoc]
      rw [List.length_append, List.length_singleton, pow_succ]
      rw [smul_neg, ← neg_smul, mul_neg_one]

/-- A wedge with a repeated vector vanishes. -/
theorem wedgeL_dup_zero {d : Nat} (x : Fin d → ℚ)
    (l₁ l₂ l₃ : List (Fin d → ℚ)) :
    wedgeL (l₁ ++ x :: (l₂ ++ x :: l₃)) = 0 := by
  rw [wedgeL_append, wedgeL_cons, wedgeL_append, wedgeL_cons]
  rw [← mvOuter_assoc (mvVector x) (wedgeL l₂)]
  rw [mvOuter_vector_wedgeL_comm x l₂, mvOuter_smul_left, mvOuter_smul_right]
  rw [mvOuter_assoc (wedgeL l₂)]
  rw [← mvOuter_assoc (mvVector x) (mvVector x), mvOuter_vector_self,
    mvOuter_zero_left, mvOuter_zero_right, mvOuter_zero_right, smul_zero]

theorem wedgeL_eq_zero_of_get_eq {d : Nat} (l : List (Fin d → ℚ)) {i j : Nat}
    (hij : i < j) (hj : j < l.length) (hi : i < l.length)
    (h : l.get ⟨i, hi⟩ = l.get ⟨j, hj⟩) : wedgeL l = 0 := by
  have hdecomp : l = l.take i ++ l.get ⟨i, hi⟩ ::
      ((l.drop (i + 1)).take (j - i - 1) ++ l.get ⟨j, hj⟩ :: l.drop (j + 1)) := by
    conv_lhs => rw [← List.take_append_drop i l]
    congr 1
    rw [List.drop_eq_getElem_cons hi]
    congr 1
    conv_lhs => rw [← List.take_append_drop (j - i - 1) (l.drop (i + 1))]
    congr 1
    rw [List.drop_drop]
    have hsum : i + 1 + (j - i - 1) = j := by omega
    rw [hsum, List.drop_eq_getElem_cons hj, List.get_eq_getElem]
  rw [hdecomp, ← h]
  exact wedgeL_dup_zero _ _ _ _

/-- Updating one entry of the indexing function updates one entry of the
mapped list. -/
theorem mapFinRange_update {d : Nat} (v : Fin d → (Fin d → ℚ)) (i : Fin d)
    (x : Fin d → ℚ) [inst : DecidableEq (Fin d)] :
    (List.finRange d).map (Function.update v i x)
      = ((List.finRange d).map v).set i.val x := by
  have hinst : inst = instDecidableEqFin d := Subsingleton.elim _ _
  subst hinst
  apply List.ext_get
  · simp
  intro k hk hk2
  rw [List.get_eq_getElem, List.get_eq_getElem, List.getElem_map,
    List.getElem_set, List.getElem_map, List.getElem_finRange,
    Function.update_apply]
  by_cases hki : (i : Nat) = k
  · rw [if_pos (Fin.ext (by simpa using hki.symm)), if_pos hki]
  · rw [if_neg (fun hcon => hki (by simpa using (congrArg Fin.val hcon).symm)),
      if_neg hki]

theorem wedgeL_set {d : Nat} (l : List (Fin d → ℚ)) (n : Nat)
    (hn : n < l.length) (x : Fin d → ℚ) :
    wedgeL (l.set n x) = mvOuter (wedgeL (l.take n))
      (mvOuter (mvVector x) (wedgeL (l.drop (n + 1)))) := by
  rw [List.set_eq_take_cons_drop x hn, wedgeL_append, wedgeL_cons]

/-- The top-grade coefficient of the wedge of the rows, as an alternating
multilinear map. -/
theorem wedgeTop_update_add {d : Nat} [inst : DecidableEq (Fin d)]
    (m : Fin d → Fin d → ℚ) (i : Fin d) (x y : Fin d → ℚ) :
    wedgeL ((List.finRange d).map (Function.update m i (x + y))) Finset.univ
      = wedgeL ((List.finRange d).map (Function.update m i x)) Finset.univ
      + wedgeL ((List.finRange d).map (Function.update m i y)) Finset.univ := by
  have hinst : inst = instDecidableEqFin d := Subsingleton.elim _ _
  subst hinst
  have hlen : (i : Nat) < ((List.finRange d).map m).length := by simp [i.isLt]
  rw [mapFinRange_update, mapFinRange_update, mapFinRange_update,
    wedgeL_set _ _ hlen, wedgeL_set _ _ hlen, wedgeL_set _ _ hlen]
  rw [mvVector_add, mvOuter_add_left, mvOuter_add_right]
  rw [Pi.add_apply]

theorem wedgeTop_update_smul {d : Nat} [inst : DecidableEq (Fin d)]
    (m : Fin d → Fin d → ℚ) (i : Fin d) (c : ℚ) (x : Fin d → ℚ) :
    wedgeL ((List.finRange d).map (Function.update m i (c • x))) Finset.univ
      = c • wedgeL ((List.finRange d).map (Function.update m i x)) Finset.univ := by
  have hinst : inst = instDecidableEqFin d := Subsingleton.elim _ _
  subst hinst
  have hlen : (i : Nat) < ((List.finRange d).map m).length := by simp [i.isLt]
  rw [mapFinRange_update, mapFinRange_update, wedgeL_set _ _ hlen,
    wedgeL_set _ _ hlen]
  rw [mvVector_smul, mvOuter_smul_left, mvOuter_smul_right]
  rfl

theorem wedgeTop_eq_zero_of_eq {d : Nat} (v : Fin d → Fin d → ℚ) (i j : Fin d)
    (hv : v i = v j) (hij : i ≠ j) :
    wedgeL ((List.finRange d).map v) Finset.univ = 0 := by
  have hlen : ∀ k : Fin d, (k : Nat) < ((List.finRange d).map v).length := by
    intro k
    simp [k.isLt]
  have hget : ∀ k : Fin d,
      ((List.finRange d).map v).get ⟨k.val, hlen k⟩ = v k := by
    intro k
    rw [List.get_eq_getElem, List.getElem_map, List.getElem_finRange]
    congr 1
  have hzero : wedgeL ((List.finRange d).map v) = 0 := by
    rcases lt_or_gt_of_ne (fun hcon : (i : Nat) = (j : Nat) =>
      hij (Fin.ext hcon)) with hlt | hgt
    · exact wedgeL_eq_zero_of_get_eq _ hlt (hlen j) (hlen i)
        (by rw [hget i, hget j, hv])
    · exact wedgeL_eq_zero_of_get_eq _ hgt (hlen i) (hlen j)
        (by rw [hget i, hget j, hv])
  rw [hzero]
  rfl

theorem mvVector_single {d : Nat} (i : Fin d) :
    mvVector (Pi.single i (1 : ℚ)) = blade {i} := by
  unfold mvVector
  rw [Finset.sum_eq_single_of_mem i (Finset.mem_univ i)
    (fun j _ hj => by rw [Pi.single_apply, if_neg hj, zero_smul])]
  rw [Pi.single_apply, if_pos rfl, one_smul]

theorem wedgeL_single_sorted {d : Nat} (l : List (Fin d))
    (hl : l.Pairwise (· < ·)) :
    wedgeL (l.map (fun i => Pi.single i (1 : ℚ))) = blade l.toFinset := by
  induction l using List.reverseRecOn with
  | nil => simp [wedgeL_nil, mvOne]
  | append_singleton l a ih =>
      have hpw := List.pairwise_append.mp hl
      have hlt : ∀ x ∈ l, x < a := fun x hx =>
        hpw.2.2 x hx a (List.mem_singleton_self a)
      rw [List.map_append, List.map_singleton]
      rw [wedgeL_append, ih hpw.1, wedgeL_singleton, mvVector_single,
        blade_outer_blade]
      have hdisj : Disjoint l.toFinset ({a} : Finset (Fin d)) := by
        rw [Finset.disjoint_singleton_right]
        intro hmem
        exact absurd rfl (ne_of_lt (hlt a (List.mem_toFinset.mp hmem)))
      rw [if_pos hdisj]
      have hsign : epsSign l.toFinset ({a} : Finset (Fin d)) = 1 := by
        unfold epsSign inversions
        have : ∀ i ∈ l.toFinset,
            (({a} : Finset (Fin d)).filter (fun j => j < i)).card = 0 := by
          intro i hi
          rw [Finset.card_eq_zero, Finset.filter_singleton,
            if_neg (not_lt_of_gt (hlt i (List.mem_toFinset.mp hi)))]
        rw [Finset.sum_congr rfl this, Finset.sum_const, smul_eq_mul,
          mul_zero, pow_zero]
      rw [hsign, one_smul]
      rw [List.toFinset_append, List.toFinset_cons, List.toFinset_nil]
      rfl

/-- The wedge of the d rows is the determinant: the central bridge between
the geometric-algebra formulation of the source and Matrix.det. -/
theorem wedgeTop_eq_det {d : Nat} (v : Fin d → (Fin d → ℚ)) :
    wedgeL ((List.finRange d).map v) Finset.univ = (Matrix.of v).det := by
  let W : (Fin d → ℚ) [⋀^Fin d]→ₗ[ℚ] ℚ :=
    { toFun := fun u => wedgeL ((List.finRange d).map u) Finset.univ,
      map_update_add' := by
        intro inst m i x y
        exact wedgeTop_update_add m i x y,
      map_update_smul' := by
        intro inst m i c x
        exact wedgeTop_update_smul m i c x,
      map_eq_zero_of_eq' := by
        intro u i j hu hij
        exact wedgeTop_eq_zero_of_eq u i j hu hij }
  have hW : ∀ u : Fin d → Fin d → ℚ,
      W u = wedgeL ((List.finRange d).map u) Finset.univ := fun u => rfl
  have hbasis : W (⇑(Pi.basisFun ℚ (Fin d))) = 1 := by
    rw [hW]
    have hfn : (List.finRange d).map (⇑(Pi.basisFun ℚ (Fin d)))
        = (List.finRange d).map (fun i => Pi.single i (1 : ℚ)) := by
      refine List.map_congr_left fun i _ => ?_
      rw [Pi.basisFun_apply]
    rw [hfn, wedgeL_single_sorted _ (List.pairwise_lt_finRange d),
      List.toFinset_finRange]
    exact blade_apply_self _
  have h := AlternatingMap.eq_smul_basis_det (Pi.basisFun ℚ (Fin d)) W
  have happ := DFunLike.congr_fun h v
  rw [AlternatingMap.smul_apply, hbasis, smul_eq_mul, one_mul] at happ
  rw [← hW v, happ, Pi.basisFun_det]
  rfl

/-! ## Constructor lemmas -/

theorem elementaryInverse_ok_of_valid (conn : DirectConnection) (s : Bool)
    (h : validElementary conn) :
    elementaryInverse conn s = Except.ok (mkInverse conn s) := by
  unfold elementaryInverse
  rw [if_neg (by simpa using h.1)]
  rw [if_neg ?hall]
  case hall =>
    simp only [not_not, List.all_eq_true]
    intro g hg
    simpa using h.2 g hg

theorem elementaryInverse_eq_ok (conn : DirectConnection) (s : Bool)
    (inv : L2Inverse) (h : elementaryInverse conn s = Except.ok inv) :
    inv = mkInverse conn s ∧ validElementary conn := by
  unfold elementaryInverse at h
  by_cases h1 : conn.from_discr.dim ≠ conn.to_discr.dim
  · rw [if_pos h1] at h
    exact absurd h (by simp)
  · rw [if_neg h1] at h
    by_cases h2 : ¬ (conn.to_discr.groups.all (fun g => g.is_orthonormal_basis))
    · rw [if_pos h2] at h
      exact absurd h (by simp)
    · rw [if_neg h2] at h
      have hv : validElementary conn := by
        refine ⟨by simpa using h1, ?_⟩
        intro g hg
        rw [not_not, List.all_eq_true] at h2
        simpa using h2 g hg
      exact ⟨(Except.ok.injEq _ _ |>.mp h).symm, hv⟩

theorem elementaryInverse_error_iff (conn : DirectConnection) (s : Bool) :
    (∃ e, elementaryInverse conn s = Except.error e)
      ↔ (conn.from_discr.dim ≠ conn.to_discr.dim
          ∨ ∃ g ∈ conn.to_discr.groups, g.is_orthonormal_basis = false) := by
  constructor
  · intro ⟨e, he⟩
    by_contra hcon
    push_neg at hcon
    have hv : validElementary conn := by
      refine ⟨hcon.1, ?_⟩
      intro g hg
      have := hcon.2 g hg
      revert this
      cases g.is_orthonormal_basis <;> simp
    rw [elementaryInverse_ok_of_valid conn s hv] at he
    exact Except.noConfusion he
  · intro hbad
    unfold elementaryInverse
    by_cases h1 : conn.from_discr.dim ≠ conn.to_discr.dim
    · exact ⟨_, by rw [if_pos h1]⟩
    · have h2 : ¬ (conn.to_discr.groups.all (fun g => g.is_orthonormal_basis)) := by
        rcases hbad with hbad | ⟨g, hg, hgo⟩
        · exact absurd hbad h1
        · simp only [List.all_eq_true]
          intro hall
          have := hall g hg
          rw [hgo] at this
          exact Bool.noConfusion this
      exact ⟨_, by rw [if_neg h1, if_pos h2]⟩

/-- C2: constructing the inverse of an elementary forward connection
fails (at construction) exactly when the dimensions differ or some
target group lacks an orthonormal basis; on failure nothing is stored
(the error carries no connection), and a construction from a valid input
succeeds and yields the wrapped connection. -/
theorem claim_C2 (conn : DirectConnection) (s : Bool) :
    ((∃ e, elementaryInverse conn s = Except.error e)
        ↔ (conn.from_discr.dim ≠ conn.to_discr.dim
            ∨ ∃ g ∈ conn.to_discr.groups, g.is_orthonormal_basis = false))
    ∧ (validElementary conn →
        elementaryInverse conn s = Except.ok (mkInverse conn s)) :=
  ⟨elementaryInverse_error_iff conn s,
    fun h => elementaryInverse_ok_of_valid conn s h⟩

/-- C2 witness: the dimension-mismatched connection fails, the
non-orthonormal one fails, and the corrected connection succeeds. -/
theorem claim_C2_witness :
    ((∃ e, elementaryInverse exBadDimConn false = Except.error e)
        ↔ (exBadDimConn.from_discr.dim ≠ exBadDimConn.to_discr.dim
            ∨ ∃ g ∈ exBadDimConn.to_discr.groups, g.is_orthonormal_basis = false))
    ∧ (elementaryInverse exConn false = Except.ok (mkInverse exConn false)) :=
  ⟨(claim_C2 exBadDimConn false).1,
    (claim_C2 exConn false).2 (by decide)⟩

/-- C8: a successfully constructed inverse swaps the source/target
discretizations of the forward connection, and swapping the inverse's
pair again returns the original pair. -/
theorem claim_C8 (conn : DirectConnection) (s : Bool) (inv : L2Inverse)
    (h : elementaryInverse conn s = Except.ok inv) :
    inv.from_discr = conn.to_discr ∧ inv.to_discr = conn.from_discr
      ∧ (inv.to_discr, inv.from_discr) = (conn.from_discr, conn.to_discr) := by
  obtain ⟨rfl, -⟩ := elementaryInverse_eq_ok conn s inv h
  exact ⟨rfl, rfl, rfl⟩

/-- C8 witness at the concrete valid connection. -/
theorem claim_C8_witness :
    (mkInverse exConn false).from_discr = exConn.to_discr
      ∧ (mkInverse exConn false).to_discr = exConn.from_discr
      ∧ ((mkInverse exConn false).to_discr, (mkInverse exConn false).from_discr)
          = (exConn.from_discr, exConn.to_discr) :=
  claim_C8 exConn false (mkInverse exConn false) rfl

theorem invertSequence_of_valid (s : Bool) (ls : List DirectConnection)
    (h : ∀ c ∈ ls, validElementary c) :
    invertSequence s (ls.map AnyConnection.direct)
      = Except.ok ((ls.reverse).map
          (fun c => AnyConnection.l2inverse (mkInverse c s))) := by
  induction ls with
  | nil => rfl
  | cons c cs ih =>
      show (do
        let rest ← invertSequence s (cs.map AnyConnection.direct)
        let ic ← invertConnection s (AnyConnection.direct c)
        Except.ok (rest ++ [ic])) = _
      rw [ih (fun x hx => h x (List.mem_cons_of_mem c hx))]
      show (do
        let ic ← invertConnection s (AnyConnection.direct c)
        Except.ok ((cs.reverse).map
          (fun x => AnyConnection.l2inverse (mkInverse x s)) ++ [ic])) = _
      have hc : invertConnection s (AnyConnection.direct c)
          = Except.ok (AnyConnection.l2inverse (mkInverse c s)) := by
        show (elementaryInverse c s).map AnyConnection.l2inverse = _
        rw [elementaryInverse_ok_of_valid c s (h c (List.mem_cons_self c cs))]
        rfl
      rw [hc]
      show Except.ok _ = Except.ok _
      rw [List.reverse_cons, List.map_append]
      rfl

/-- C5: inverting a chained connection with links, or a raw sequence of
elementary connections, yields a chained connection whose links are the
elementary inverses in exactly reversed order; a zero-link chained
connection is returned unchanged. -/
theorem claim_C5 (s : Bool) :
    (invertConnection s (AnyConnection.chainedConn [])
        = Except.ok (AnyConnection.chainedConn []))
    ∧ (∀ ls : List DirectConnection, ls ≠ [] →
        (∀ c ∈ ls, validElementary c) →
        invertConnection s (AnyConnection.chainedConn
            (ls.map AnyConnection.direct))
          = Except.ok (AnyConnection.chainedConn ((ls.reverse).map
              (fun c => AnyConnection.l2inverse (mkInverse c s)))))
    ∧ (∀ ls : List DirectConnection, (∀ c ∈ ls, validElementary c) →
        invertSequence s (ls.map AnyConnection.direct)
          = Except.ok ((ls.reverse).map
              (fun c => AnyConnection.l2inverse (mkInverse c s)))) := by
  refine ⟨rfl, ?_, invertSequence_of_valid s⟩
  intro ls hne hv
  rcases ls with _ | ⟨c, cs⟩
  · exact absurd rfl hne
  · show (invertSequence s (AnyConnection.direct c
        :: cs.map AnyConnection.direct)).map AnyConnection.chainedConn = _
    have := invertSequence_of_valid s (c :: cs) hv
    rw [show (c :: cs).map AnyConnection.direct
        = AnyConnection.direct c :: cs.map AnyConnection.direct from rfl] at this
    rw [this]
    rfl

/-- C5 witness: a two-link chain inverts into the reversed chain of
elementary inverses, and the raw two-element sequence likewise. -/
theorem claim_C5_witness :
    (invertConnection false (AnyConnection.chainedConn
        ([exConn, exConn2].map AnyConnection.direct))
      = Except.ok (AnyConnection.chainedConn
          (([exConn, exConn2].reverse).map
            (fun c => AnyConnection.l2inverse (mkInverse c false)))))
    ∧ (invertSequence false ([exConn, exConn2].map AnyConnection.direct)
      = Except.ok (([exConn, exConn2].reverse).map
          (fun c => AnyConnection.l2inverse (mkInverse c false)))) :=
  ⟨(claim_C5 false).2.1 [exConn, exConn2] (by simp) (by decide),
    (claim_C5 false).2.2 [exConn, exConn2] (by decide)⟩

/-- C10: the stages of apply index the forward connection's groups, the
forward connection's from_discr groups and the inverse's to_discr groups
interchangeably, so apply is well-defined (all indexing in range, every
parent group covered) only when the three group sequences have equal
length. -/
theorem claim_C10 (conn : DirectConnection) (s : Bool) (inv : L2Inverse)
    (hcons : elementaryInverse conn s = Except.ok inv)
    (hOK : applyIndexingOK inv) :
    inv.conn.groups.length = inv.conn.from_discr.groups.length
      ∧ inv.conn.from_discr.groups.length = inv.to_discr.groups.length := by
  obtain ⟨rfl, -⟩ := elementaryInverse_eq_ok conn s inv hcons
  rcases hOK with ⟨h1, h2, -, -⟩
  simp only [mkInverse] at h1 h2 ⊢
  have hle : conn.groups.length ≤ conn.from_discr.groups.length := by
    by_cases h0 : conn.groups.length = 0
    · omega
    · have := h2 (conn.groups.length - 1) (by omega)
      omega
  exact ⟨Nat.le_antisymm hle h1, trivial⟩

/-- C10 witness: on the concrete aligned connection the indexing
predicate holds and the three lengths agree. -/
theorem claim_C10_witness :
    exInv.conn.groups.length = exInv.conn.from_discr.groups.length
      ∧ exInv.conn.from_discr.groups.length = exInv.to_discr.groups.length :=
  claim_C10 exConn false exInv rfl (by decide)

/-! ## Weight cache lemmas (C6) -/

theorem batch_weights_compute_ctx (inv : L2Inverse) (ctx : Nat) :
    ∀ e ∈ batch_weights_compute inv ctx, e.2.ctxId = ctx := by
  intro e he
  unfold batch_weights_compute at he
  rw [List.mem_flatMap] at he
  obtain ⟨igrp, -, he⟩ := he
  rw [List.mem_map] at he
  obtain ⟨ibatch, -, he⟩ := he
  rw [← he]

/-- C6 as amended: the _batch_weights cache is attached to the
connection instance with the constant key (), so it is populated lazily
at most once per connection - by the first call, under that call's
context - and the stored dictionary, whose every array is frozen under
the computing context, is returned unchanged by every later call
whatever context that call runs under. -/
theorem claim_C6 (inv : L2Inverse) (c1 c2 : Nat)
    (w : List ((Nat × Nat) × FrozenArray)) :
    (batch_weights inv c1 none
        = (batch_weights_compute inv c1, some (batch_weights_compute inv c1)))
    ∧ (batch_weights inv c2 (some w) = (w, some w))
    ∧ (∀ e ∈ batch_weights_compute inv c1, e.2.ctxId = c1)
    ∧ ((batch_weights inv c2 (batch_weights inv c1 none).2).1
        = batch_weights_compute inv c1) :=
  ⟨rfl, rfl, batch_weights_compute_ctx inv c1, rfl⟩

/-- C6 witness at the concrete connection and contexts 1, 2. -/
theorem claim_C6_witness :
    (batch_weights exInv 1 none
        = (batch_weights_compute exInv 1, some (batch_weights_compute exInv 1)))
    ∧ (batch_weights exInv 2 (some []) = ([], some []))
    ∧ (∀ e ∈ batch_weights_compute exInv 1, e.2.ctxId = 1)
    ∧ ((batch_weights exInv 2 (batch_weights exInv 1 none).2).1
        = batch_weights_compute exInv 1) :=
  claim_C6 exInv 1 2 []

/-! ## Weight dictionary lookup lemmas (shared by C4, C6, C9) -/

theorem lookup_eq_of_mem_nodupKeys {β : Type} (l : List ((Nat × Nat) × β))
    (hnd : (l.map Prod.fst).Nodup) (k : Nat × Nat) (v : β)
    (hmem : (k, v) ∈ l) : l.lookup k = some v := by
  induction l with
  | nil => exact absurd hmem (List.not_mem_nil _)
  | cons p t ih =>
      rw [List.map_cons, List.nodup_cons] at hnd
      rcases List.mem_cons.mp hmem with heq | hmemt
      · rw [← heq, List.lookup_cons]
        simp
      · have hk : (k == p.1) = false := by
          rw [beq_eq_false_iff_ne]
          intro hkp
          exact hnd.1 (hkp ▸ (List.mem_map.mpr ⟨(k, v), hmemt, rfl⟩))
        rcases p with ⟨k2, v2⟩
        rw [List.lookup_cons]
        rw [show (k == (k2, v2).1) = false from hk]
        exact ih hnd.2 hmemt

theorem map_fst_pair {β : Type} (igrp : Nat) (f : Nat → β) (l : List Nat) :
    ((l.map (fun ib => ((igrp, ib), f ib))).map Prod.fst)
      = l.map (fun ib => (igrp, ib)) := by
  rw [List.map_map]
  rfl

theorem batch_weights_compute_keysNodup (inv : L2Inverse) (ctx : Nat) :
    ((batch_weights_compute inv ctx).map Prod.fst).Nodup := by
  unfold batch_weights_compute
  rw [List.map_flatMap]
  rw [List.nodup_flatMap]
  constructor
  · intro igrp _
    rw [map_fst_pair]
    exact (List.nodup_range _).map
      (fun a b hab => congrArg Prod.snd hab)
  · refine List.Pairwise.imp ?_ (List.pairwise_lt_range _)
    intro a b hab
    rw [Function.onFun]
    rw [map_fst_pair, map_fst_pair, List.disjoint_left]
    intro x hxa hxb
    rw [List.mem_map] at hxa hxb
    obtain ⟨ia, -, hia⟩ := hxa
    obtain ⟨ib, -, hib⟩ := hxb
    have h1 := congrArg Prod.fst hia
    have h2 := congrArg Prod.fst hib
    simp only at h1 h2
    omega

theorem batch_weights_compute_mem (inv : L2Inverse) (ctx : Nat)
    (igrp ibatch : Nat)
    (h1 : igrp < inv.to_discr.groups.length)
    (h2 : ibatch < (inv.conn.groups.getD igrp emptyConnectionGroup).batches.length) :
    ((igrp, ibatch),
      FrozenArray.mk ctx
        (batchWeightValues (inv.to_discr.groups.getD igrp emptyGroup)
          ((inv.conn.groups.getD igrp emptyConnectionGroup).batches.getD
            ibatch emptyBatch))) ∈ batch_weights_compute inv ctx := by
  unfold batch_weights_compute
  rw [List.mem_flatMap]
  refine ⟨igrp, List.mem_range.mpr h1, ?_⟩
  rw [List.mem_map]
  exact ⟨ibatch, List.mem_range.mpr h2, rfl⟩

theorem batch_weights_compute_lookup (inv : L2Inverse) (ctx : Nat)
    (igrp ibatch : Nat)
    (h1 : igrp < inv.to_discr.groups.length)
    (h2 : ibatch < (inv.conn.groups.getD igrp emptyConnectionGroup).batches.length) :
    (batch_weights_compute inv ctx).lookup (igrp, ibatch)
      = some (FrozenArray.mk ctx
          (batchWeightValues (inv.to_discr.groups.getD igrp emptyGroup)
            ((inv.conn.groups.getD igrp emptyConnectionGroup).batches.getD
              ibatch emptyBatch))) :=
  lookup_eq_of_mem_nodupKeys _ (batch_weights_compute_keysNodup inv ctx) _ _
    (batch_weights_compute_mem inv ctx igrp ibatch h1 h2)

/-- The geometric-algebra determinant of the source equals the absolute
value of the matrix determinant of the per-node Jacobian. -/
theorem detAtNode_eq_abs_det (grp : ElementGroup) (run : List (List ℚ))
    (i : Nat) :
    detAtNode grp run i
      = |(Matrix.of (fun a b : Fin grp.dim => jacAt grp run a.val i b.val)).det| := by
  unfold detAtNode
  rw [show ((List.finRange grp.dim).map (fun a =>
      mvVector (fun b : Fin grp.dim => jacAt grp run a.val i b.val)))
    = (((List.finRange grp.dim).map
        (fun a => (fun b : Fin grp.dim => jacAt grp run a.val i b.val))).map
          mvVector)
    from (List.map_map mvVector _ _).symm]
  rw [mvReduce_map_eq_wedgeL, wedgeTop_eq_det]

theorem exGroup_detAtNode : detAtNode exGroup ([[1]] : List (List ℚ)) 0 = 1 := by
  rw [detAtNode_eq_abs_det]
  have h : (Matrix.of (fun a b : Fin 1 =>
      jacAt exGroup [[1]] a.val 0 b.val)).det = 1 := by
    rw [Matrix.det_fin_one]
    show jacAt exGroup [[1]] 0 0 0 = 1
    show dotRow [1] [1] = 1
    norm_num [dotRow]
  show |(Matrix.of (fun a b : Fin 1 =>
      jacAt exGroup [[1]] a.val 0 b.val)).det| = 1
  rw [h]
  norm_num

theorem exGroup_batchWeightValues :
    batchWeightValues exGroup exBatch = [1] := by
  show (List.range 1).map
    (fun i => detAtNode exGroup [[1]] i * exGroup.weights.getD i 0) = [1]
  rw [show List.range 1 = [0] from rfl, List.map_singleton, exGroup_detAtNode]
  show [(1 : ℚ) * 1] = [1]
  norm_num

/-- C4: for every in-range (group index, batch index) pair, the cached
scaled-weight vector is, nodewise, the absolute value of the top-grade
(pseudoscalar) coefficient of the wedge, over all spatial axes, of the
multivectors built from the group's reference differentiation matrices
applied at the batch's result_unit_nodes, multiplied by the group's
native quadrature weights; and the dictionary stores one frozen array
per (group_index, batch_index) key (keys occur without duplicates),
frozen under the computing execution context. -/
theorem claim_C4 (inv : L2Inverse) (ctx : Nat) (igrp ibatch : Nat)
    (h1 : igrp < inv.to_discr.groups.length)
    (h2 : ibatch < (inv.conn.groups.getD igrp emptyConnectionGroup).batches.length) :
    ((batch_weights_compute inv ctx).lookup (igrp, ibatch)
      = some (FrozenArray.mk ctx
          ((List.range (inv.to_discr.groups.getD igrp emptyGroup).nunit_dofs).map
            (fun i =>
              |mvReduce
                  ((List.finRange (inv.to_discr.groups.getD igrp emptyGroup).dim).map
                    (fun a => mvVector
                      (fun b : Fin (inv.to_discr.groups.getD igrp emptyGroup).dim =>
                        jacAt (inv.to_discr.groups.getD igrp emptyGroup)
                          ((inv.conn.groups.getD igrp
                              emptyConnectionGroup).batches.getD
                            ibatch emptyBatch).result_unit_nodes
                          a.val i b.val)))
                  Finset.univ|
                * (inv.to_discr.groups.getD igrp emptyGroup).weights.getD i 0))))
    ∧ ((batch_weights_compute inv ctx).map Prod.fst).Nodup := by
  refine ⟨?_, batch_weights_compute_keysNodup inv ctx⟩
  rw [batch_weights_compute_lookup inv ctx igrp ibatch h1 h2]
  rfl

/-- C4 witness at the concrete connection: the entry for (0, 0) computed
under context 7 is the frozen array of the single scaled weight 1. -/
theorem claim_C4_witness :
    (batch_weights_compute exInv 7).lookup (0, 0) = some (FrozenArray.mk 7 [1])
    ∧ ((batch_weights_compute exInv 7).map Prod.fst).Nodup := by
  refine ⟨?_, (claim_C4 exInv 7 0 0 (by decide) (by decide)).2⟩
  rw [(claim_C4 exInv 7 0 0 (by decide) (by decide)).1]
  exact congrArg (fun v => some (FrozenArray.mk 7 v)) exGroup_batchWeightValues

/-- C6 counterexample: the claimed keying by execution-context identity
fails on the code.  The first call runs under context 1 and freezes the
weight vector under context 1; a second call under the distinct context
2 receives that very dictionary - the entry for (group 0, batch 0) is
the array frozen by context 1 - so a weight vector computed under one
execution context is reused for a call made under a different one. -/
theorem claim_C6_counterexample :
    ((batch_weights exInv 2 (batch_weights exInv 1 none).2).1).lookup (0, 0)
        = some { ctxId := 1, values := [1] }
    ∧ (1 : Nat) ≠ 2 := by
  refine ⟨?_, by decide⟩
  show (batch_weights_compute exInv 1).lookup (0, 0)
      = some { ctxId := 1, values := [1] }
  rw [batch_weights_compute_lookup exInv 1 0 0 (by decide) (by decide)]
  have hv : batchWeightValues (exInv.to_discr.groups.getD 0 emptyGroup)
      ((exInv.conn.groups.getD 0 emptyConnectionGroup).batches.getD
        0 emptyBatch) = [1] := exGroup_batchWeightValues
  rw [hv]

/-! ## Transport operator lemmas (C7) -/

theorem connCallList_dof (inv : L2Inverse) (bEval : Nat → List ℚ → ℚ) :
    ∀ (as : List DOFArray) (st : CallState),
      connCallList inv bEval (as.map FieldInput.dof) st
        = (Except.ok ((broadcastDOF inv bEval as st).1.map FieldInput.dof),
            (broadcastDOF inv bEval as st).2) := by
  intro as
  induction as with
  | nil => intro st; rfl
  | cons a as ih =>
      intro st
      show (match connCallList inv bEval (as.map FieldInput.dof)
          ((applyDOF inv bEval a st).2) with
        | (Except.ok ys, st3) =>
            (Except.ok (FieldInput.dof (applyDOF inv bEval a st).1 :: ys), st3)
        | (Except.error e, st3) => (Except.error e, st3)) = _
      rw [ih ((applyDOF inv bEval a st).2)]
      rfl

/-- C7: a raw scalar passed to the transport operator raises the
TypeError synchronously and leaves both caches (the connection's weight
cache and the context's Vandermonde cache) exactly as they were - the
isinstance check precedes every cache access; an object array of
DOFArray components is instead broadcast element-wise, each component
going through the DOFArray body in order with the caches threaded
through. -/
theorem claim_C7 (inv : L2Inverse) (bEval : Nat → List ℚ → ℚ) (q : ℚ)
    (st : CallState) (as : List DOFArray) :
    (connCall inv bEval (FieldInput.scalar q) st
        = (Except.error "non-array passed to discretization connection", st))
    ∧ (connCall inv bEval (FieldInput.obj (as.map FieldInput.dof)) st
        = (Except.ok (FieldInput.obj
            ((broadcastDOF inv bEval as st).1.map FieldInput.dof)),
          (broadcastDOF inv bEval as st).2)) := by
  refine ⟨rfl, ?_⟩
  show (match connCallList inv bEval (as.map FieldInput.dof) st with
    | (Except.ok ys, st2) => (Except.ok (FieldInput.obj ys), st2)
    | (Except.error e, st2) => (Except.error e, st2)) = _
  rw [connCallList_dof inv bEval as st]

/-- C7 witness: the scalar 5 errors on the concrete connection with the
empty caches left untouched, and the empty object array broadcasts. -/
theorem claim_C7_witness :
    (connCall exInv exEval (FieldInput.scalar 5)
        { wCache := none, vdmCache := [] }
      = (Except.error "non-array passed to discretization connection",
          { wCache := none, vdmCache := [] }))
    ∧ (connCall exInv exEval (FieldInput.obj (([] : List DOFArray).map FieldInput.dof))
        { wCache := none, vdmCache := [] }
      = (Except.ok (FieldInput.obj
          ((broadcastDOF exInv exEval [] { wCache := none, vdmCache := [] }).1.map
            FieldInput.dof)),
        (broadcastDOF exInv exEval [] { wCache := none, vdmCache := [] }).2)) :=
  claim_C7 exInv exEval 5 { wCache := none, vdmCache := [] } []

/-- C9: at every node whose Jacobian axis vectors are linearly
independent, with a strictly positive native quadrature weight at that
node, the computed scaled-weight entry is strictly positive; and the
node's wedge-product magnitude is invariant under any permutation of the
spatial axes entering the wedge. -/
theorem claim_C9 (grp : ElementGroup) (batch : InterpolationBatch) (i : Nat)
    (hi : i < grp.nunit_dofs)
    (hindep : LinearIndependent ℚ (fun a : Fin grp.dim =>
        (fun b : Fin grp.dim => jacAt grp batch.result_unit_nodes a.val i b.val)))
    (hw : 0 < grp.weights.getD i 0) :
    (0 < (batchWeightValues grp batch).getD i 0)
    ∧ (∀ σ : Equiv.Perm (Fin grp.dim),
        |mvReduce ((List.finRange grp.dim).map (fun a =>
            mvVector (fun b : Fin grp.dim =>
              jacAt grp batch.result_unit_nodes (σ a).val i b.val)))
          Finset.univ|
          = detAtNode grp batch.result_unit_nodes i) := by
  constructor
  · have hval : (batchWeightValues grp batch).getD i 0
        = detAtNode grp batch.result_unit_nodes i * grp.weights.getD i 0 := by
      unfold batchWeightValues
      rw [List.getD_eq_getElem _ _ (by simpa using hi), List.getElem_map,
        List.getElem_range]
    rw [hval, detAtNode_eq_abs_det]
    have hunit : IsUnit (Matrix.of (fun a b : Fin grp.dim =>
        jacAt grp batch.result_unit_nodes a.val i b.val)) :=
      Matrix.linearIndependent_rows_iff_isUnit.mp hindep
    have hne : (Matrix.of (fun a b : Fin grp.dim =>
        jacAt grp batch.result_unit_nodes a.val i b.val)).det ≠ 0 :=
      ((Matrix.isUnit_iff_isUnit_det _).mp hunit).ne_zero
    exact mul_pos (abs_pos.mpr hne) hw
  · intro σ
    have h1 : mvReduce ((List.finRange grp.dim).map (fun a =>
        mvVector (fun b : Fin grp.dim =>
          jacAt grp batch.result_unit_nodes (σ a).val i b.val))) Finset.univ
        = (Matrix.of (fun a b : Fin grp.dim =>
            jacAt grp batch.result_unit_nodes (σ a).val i b.val)).det := by
      rw [show ((List.finRange grp.dim).map (fun a =>
          mvVector (fun b : Fin grp.dim =>
            jacAt grp batch.result_unit_nodes (σ a).val i b.val)))
        = (((List.finRange grp.dim).map (fun a => (fun b : Fin grp.dim =>
            jacAt grp batch.result_unit_nodes (σ a).val i b.val))).map
              mvVector)
        from (List.map_map mvVector _ _).symm]
      rw [mvReduce_map_eq_wedgeL, wedgeTop_eq_det]
    rw [h1, detAtNode_eq_abs_det]
    rw [show (Matrix.of (fun a b : Fin grp.dim =>
        jacAt grp batch.result_unit_nodes (σ a).val i b.val))
      = (Matrix.of (fun a b : Fin grp.dim =>
          jacAt grp batch.result_unit_nodes a.val i b.val)).submatrix σ id
      from rfl]
    rw [Matrix.det_permute]
    rcases Int.units_eq_one_or (Equiv.Perm.sign σ) with hs | hs
    · rw [hs]
      norm_num
    · rw [hs]
      rw [abs_mul]
      norm_num

/-- C9 witness at the concrete 1-dimensional group, node 0: the single
Jacobian vector (1) is linearly independent, the weight 1 is positive,
the scaled weight is positive, and the identity permutation preserves
the wedge magnitude. -/
theorem claim_C9_witness :
    (0 < (batchWeightValues exGroup exBatch).getD 0 0)
    ∧ (∀ σ : Equiv.Perm (Fin exGroup.dim),
        |mvReduce ((List.finRange exGroup.dim).map (fun a =>
            mvVector (fun b : Fin exGroup.dim =>
              jacAt exGroup exBatch.result_unit_nodes (σ a).val 0 b.val)))
          Finset.univ|
          = detAtNode exGroup exBatch.result_unit_nodes 0) :=
  claim_C9 exGroup exBatch 0 (by decide)
    (by
      show LinearIndependent ℚ (fun a : Fin 1 =>
        (fun b : Fin 1 => jacAt exGroup exBatch.result_unit_nodes a.val 0 b.val))
      refine linearIndependent_unique _ ?_
      intro hcon
      have h0 : jacAt exGroup exBatch.result_unit_nodes 0 0 0 = 0 := by
        simpa using congrFun hcon (0 : Fin 1)
      have hjac : jacAt exGroup exBatch.result_unit_nodes 0 0 0 = 1 := by
        show dotRow [1] [1] = 1
        norm_num [dotRow]
      rw [hjac] at h0
      exact one_ne_zero h0)
    (show (0 : ℚ) < exGroup.weights.getD 0 0 from by
      show (0 : ℚ) < 1
      norm_num)

/-! ## Projection kernel lemmas (C1) -/

theorem kprojBatch_foldl_eval (bEval : Nat → List ℚ → ℚ) (sgrp : ElementGroup)
    (batch : InterpolationBatch) (fieldArr : List (List ℚ)) (wvals : List ℚ)
    (nToNodes : Nat) (e k : Nat) (hk : k < nToNodes) :
    ∀ (pairs : List (Nat × Nat)) (res : Nat → Nat → ℚ),
      (pairs.foldl (fun r p =>
          kprojStep bEval sgrp batch fieldArr wvals nToNodes r p.1 p.2) res) e k
        = res e k + ((pairs.filter (fun p => p.2 == e)).map
            (fun p =>
              kprojInner bEval sgrp batch fieldArr wvals nToNodes p.1 k)).sum := by
  intro pairs
  induction pairs with
  | nil =>
      intro res
      simp
  | cons p ps ih =>
      intro res
      rw [List.foldl_cons, ih]
      by_cases hpe : p.2 = e
      · rw [show (kprojStep bEval sgrp batch fieldArr wvals nToNodes res p.1 p.2) e k
            = res e k + kprojInner bEval sgrp batch fieldArr wvals nToNodes p.1 k
          from by
            unfold kprojStep
            rw [if_pos ⟨hpe.symm, hk⟩]]
        rw [List.filter_cons_of_pos (by simpa using hpe), List.map_cons,
          List.sum_cons]
        ring
      · rw [show (kprojStep bEval sgrp batch fieldArr wvals nToNodes res p.1 p.2) e k
            = res e k
          from by
            unfold kprojStep
            rw [if_neg (fun hcon => hpe hcon.1.symm)]]
        rw [List.filter_cons_of_neg (by simpa using hpe)]

theorem kproj_group_foldl (bEval : Nat → List ℚ → ℚ)
    (sg : Nat → ElementGroup) (bt : Nat → InterpolationBatch)
    (fa : Nat → List (List ℚ)) (wv : Nat → List ℚ) (nToNodes : Nat)
    (e k : Nat) (hk : k < nToNodes) :
    ∀ (n : Nat) (res : Nat → Nat → ℚ),
      ((List.range n).foldl (fun r ib =>
          kprojBatch bEval (sg ib) (bt ib) (fa ib) (wv ib) nToNodes r) res) e k
        = res e k + ((List.range n).map (fun ib =>
            (((List.zip (bt ib).from_element_indices
                (bt ib).to_element_indices).filter
                  (fun p => p.2 == e)).map (fun p =>
              kprojInner bEval (sg ib) (bt ib) (fa ib) (wv ib)
                nToNodes p.1 k)).sum)).sum := by
  intro n
  induction n with
  | zero =>
      intro res
      simp
  | succ n ih =>
      intro res
      rw [List.range_succ, List.foldl_append, List.foldl_cons, List.foldl_nil]
      rw [show kprojBatch bEval (sg n) (bt n) (fa n) (wv n) nToNodes
            ((List.range n).foldl (fun r ib =>
              kprojBatch bEval (sg ib) (bt ib) (fa ib) (wv ib) nToNodes r) res)
          = (List.zip (bt n).from_element_indices
              (bt n).to_element_indices).foldl
              (fun r p => kprojStep bEval (sg n) (bt n) (fa n) (wv n)
                nToNodes r p.1 p.2)
              ((List.range n).foldl (fun r ib =>
                kprojBatch bEval (sg ib) (bt ib) (fa ib) (wv ib) nToNodes r) res)
          from rfl]
      rw [kprojBatch_foldl_eval bEval (sg n) (bt n) (fa n) (wv n) nToNodes
        e k hk _ _]
      rw [ih res]
      rw [List.map_append, List.sum_append, List.map_singleton,
        List.sum_singleton, add_assoc]

/-- C1: for every connection group igrp, destination element row e and
basis index k below the group's dof count, the fused accumulation
produces exactly
sum over batches ibatch of g, over the batch's paired
(from_element_indices, to_element_indices) entries whose destination is
e, of sum over nodes of
field[from_el, node] * (basis function k of the source group evaluated
at column node of the batch's result_unit_nodes) * weight[node],
the weights being the cached vector of (igrp, ibatch): the set of
contributions summed into a shared destination element is exactly the
set of (batch, pair) entries mapping to it, with no omissions and no
double counts. -/
theorem claim_C1 (inv : L2Inverse) (bEval : Nat → List ℚ → ℚ)
    (ary : DOFArray) (wdict : List ((Nat × Nat) × FrozenArray))
    (igrp e k : Nat)
    (hk : k < (inv.to_discr.groups.getD igrp emptyGroup).nunit_dofs) :
    groupCoefficients inv bEval ary wdict igrp e k
      = ((List.range
            (inv.conn.groups.getD igrp emptyConnectionGroup).batches.length).map
          (fun ib =>
            (((List.zip
                ((inv.conn.groups.getD igrp
                    emptyConnectionGroup).batches.getD ib
                  emptyBatch).from_element_indices
                ((inv.conn.groups.getD igrp
                    emptyConnectionGroup).batches.getD ib
                  emptyBatch).to_element_indices).filter
                (fun p => p.2 == e)).map (fun p =>
              ((List.range
                  (inv.to_discr.groups.getD igrp emptyGroup).nunit_dofs).map
                (fun q =>
                  ((ary.data.getD
                      (inv.from_discr.groups.getD
                        ((inv.conn.groups.getD igrp
                            emptyConnectionGroup).batches.getD ib
                          emptyBatch).from_group_index
                        emptyGroup).index []).getD p.1 []).getD q 0
                  * bEval
                      ((inv.from_discr.groups.getD
                          ((inv.conn.groups.getD igrp
                              emptyConnectionGroup).batches.getD ib
                            emptyBatch).from_group_index
                          emptyGroup).basisIds.getD k 0)
                      (runColumn
                        ((inv.conn.groups.getD igrp
                            emptyConnectionGroup).batches.getD ib
                          emptyBatch).result_unit_nodes q)
                  * (((wdict.lookup (igrp, ib)).getD
                      (FrozenArray.mk 0 [])).values).getD q 0)).sum)).sum)).sum := by
  have h := kproj_group_foldl bEval
    (fun ib => inv.from_discr.groups.getD
      ((inv.conn.groups.getD igrp emptyConnectionGroup).batches.getD ib
        emptyBatch).from_group_index emptyGroup)
    (fun ib => (inv.conn.groups.getD igrp emptyConnectionGroup).batches.getD ib
      emptyBatch)
    (fun ib => ary.data.getD
      (inv.from_discr.groups.getD
        ((inv.conn.groups.getD igrp emptyConnectionGroup).batches.getD ib
          emptyBatch).from_group_index emptyGroup).index [])
    (fun ib => ((wdict.lookup (igrp, ib)).getD (FrozenArray.mk 0 [])).values)
    (inv.to_discr.groups.getD igrp emptyGroup).nunit_dofs e k hk
    (inv.conn.groups.getD igrp emptyConnectionGroup).batches.length
    (fun _ _ => 0)
  rw [show ((fun _ _ => (0 : ℚ)) e k) + ((List.range
        (inv.conn.groups.getD igrp emptyConnectionGroup).batches.length).map
      (fun ib =>
        (((List.zip
            ((inv.conn.groups.getD igrp
                emptyConnectionGroup).batches.getD ib
              emptyBatch).from_element_indices
            ((inv.conn.groups.getD igrp
                emptyConnectionGroup).batches.getD ib
              emptyBatch).to_element_indices).filter
            (fun p => p.2 == e)).map (fun p =>
          kprojInner bEval
            (inv.from_discr.groups.getD
              ((inv.conn.groups.getD igrp
                  emptyConnectionGroup).batches.getD ib
                emptyBatch).from_group_index emptyGroup)
            ((inv.conn.groups.getD igrp emptyConnectionGroup).batches.getD ib
              emptyBatch)
            (ary.data.getD
              (inv.from_discr.groups.getD
                ((inv.conn.groups.getD igrp
                    emptyConnectionGroup).batches.getD ib
                  emptyBatch).from_group_index emptyGroup).index [])
            (((wdict.lookup (igrp, ib)).getD (FrozenArray.mk 0 [])).values)
            (inv.to_discr.groups.getD igrp emptyGroup).nunit_dofs
            p.1 k)).sum)).sum
    = ((List.range
        (inv.conn.groups.getD igrp emptyConnectionGroup).batches.length).map
      (fun ib =>
        (((List.zip
            ((inv.conn.groups.getD igrp
                emptyConnectionGroup).batches.getD ib
              emptyBatch).from_element_indices
            ((inv.conn.groups.getD igrp
                emptyConnectionGroup).batches.getD ib
              emptyBatch).to_element_indices).filter
            (fun p => p.2 == e)).map (fun p =>
          kprojInner bEval
            (inv.from_discr.groups.getD
              ((inv.conn.groups.getD igrp
                  emptyConnectionGroup).batches.getD ib
                emptyBatch).from_group_index emptyGroup)
            ((inv.conn.groups.getD igrp emptyConnectionGroup).batches.getD ib
              emptyBatch)
            (ary.data.getD
              (inv.from_discr.groups.getD
                ((inv.conn.groups.getD igrp
                    emptyConnectionGroup).batches.getD ib
                  emptyBatch).from_group_index emptyGroup).index [])
            (((wdict.lookup (igrp, ib)).getD (FrozenArray.mk 0 [])).values)
            (inv.to_discr.groups.getD igrp emptyGroup).nunit_dofs
            p.1 k)).sum)).sum
    from zero_add _] at h
  exact h

/-- C1 witness: on a connection whose group has no batches the
accumulated coefficient at row 0, basis 0 is the empty sum, 0. -/
theorem claim_C1_witness :
    groupCoefficients (mkInverse exConn2 false) exEval
      (DOFArray.mk 1 []) [] 0 0 0 = 0 := by
  rw [claim_C1 (mkInverse exConn2 false) exEval (DOFArray.mk 1 []) []
    0 0 0 (by decide)]
  simp

/-! ## Association list lemmas for the Vandermonde cache (C3) -/

theorem lookup_append_eq {α β : Type} [BEq α] (l₁ l₂ : List (α × β)) (k : α) :
    (l₁ ++ l₂).lookup k
      = match l₁.lookup k with
        | some v => some v
        | none => l₂.lookup k := by
  induction l₁ with
  | nil => rfl
  | cons p t ih =>
      rcases p with ⟨k2, v2⟩
      rw [List.cons_append, List.lookup_cons, List.lookup_cons]
      cases hbeq : (k == k2) with
      | true => rfl
      | false => exact ih

theorem lookup_some_mem {α β : Type} [BEq α] [LawfulBEq α]
    (l : List (α × β)) (k : α) (v : β) (h : l.lookup k = some v) :
    (k, v) ∈ l := by
  induction l with
  | nil => exact absurd h (by simp)
  | cons p t ih =>
      rcases p with ⟨k2, v2⟩
      rw [List.lookup_cons] at h
      cases hbeq : (k == k2) with
      | true =>
          rw [hbeq] at h
          have hk : k = k2 := by simpa using hbeq
          have hv : v2 = v := by simpa using h
          rw [← hk, hv] at *
          exact List.mem_cons_self _ _
      | false =>
          rw [hbeq] at h
          exact List.mem_cons_of_mem _ (ih h)

theorem vdmLookupOrCompute_hit (bEval : Nat → List ℚ → ℚ)
    (cache : List ((List Nat × List (List ℚ)) × List (List ℚ)))
    (g : ElementGroup) (m : List (List ℚ))
    (h : cache.lookup (discretization_key g) = some m) :
    vdmLookupOrCompute bEval cache g = (m, cache, false) := by
  unfold vdmLookupOrCompute
  rw [h]

theorem vdmLookupOrCompute_miss (bEval : Nat → List ℚ → ℚ)
    (cache : List ((List Nat × List (List ℚ)) × List (List ℚ)))
    (g : ElementGroup)
    (h : cache.lookup (discretization_key g) = none) :
    vdmLookupOrCompute bEval cache g
      = (vandermonde_matrix bEval g,
          cache ++ [(discretization_key g, vandermonde_matrix bEval g)],
          true) := by
  unfold vdmLookupOrCompute
  rw [h]

theorem evalFold_facts (bEval : Nat → List ℚ → ℚ) (c : List (List (List ℚ))) :
    ∀ (gs : List ElementGroup) (res0 : List (List (List ℚ)))
      (cache : VdmCache) (tr0 : List DiscrKey),
      (∀ p ∈ cache, p.2 = vdmOfKey bEval p.1) →
      tr0.Nodup →
      (∀ key ∈ tr0, (cache.lookup key).isSome = true) →
      ((gs.foldl (evalStep bEval c) (res0, cache, tr0)).1
          = res0 ++ gs.map (fun grp =>
              kevalResult (vandermonde_matrix bEval grp) (c.getD grp.index [])))
      ∧ (∀ p ∈ (gs.foldl (evalStep bEval c) (res0, cache, tr0)).2.1,
          p.2 = vdmOfKey bEval p.1)
      ∧ ((gs.foldl (evalStep bEval c) (res0, cache, tr0)).2.2).Nodup
      ∧ (∀ key ∈ (gs.foldl (evalStep bEval c) (res0, cache, tr0)).2.2,
          (((gs.foldl (evalStep bEval c) (res0, cache, tr0)).2.1).lookup
            key).isSome = true)
      ∧ (∃ ext, (gs.foldl (evalStep bEval c) (res0, cache, tr0)).2.1
          = cache ++ ext)
      ∧ (∀ key ∈ (gs.foldl (evalStep bEval c) (res0, cache, tr0)).2.2,
          key ∈ tr0 ∨ cache.lookup key = none) := by
  intro gs
  induction gs with
  | nil =>
      intro res0 cache tr0 hco hnd hst
      refine ⟨by simp, hco, hnd, hst, ⟨[], by simp⟩, fun key hk => Or.inl hk⟩
  | cons grp gs ih =>
      intro res0 cache tr0 hco hnd hst
      rw [List.foldl_cons]
      cases hlook : cache.lookup (discretization_key grp) with
      | some m =>
          have hm : m = vandermonde_matrix bEval grp := by
            have hmem := lookup_some_mem cache (discretization_key grp) m hlook
            exact hco _ hmem
          have hstep : evalStep bEval c (res0, cache, tr0) grp
              = (res0 ++ [kevalResult (vandermonde_matrix bEval grp)
                  (c.getD grp.index [])], cache, tr0) := by
            unfold evalStep
            rw [show (vdmLookupOrCompute bEval
                (res0, cache, tr0).2.1 grp)
              = (m, cache, false) from vdmLookupOrCompute_hit bEval cache grp m hlook]
            rw [hm]
            simp
          rw [hstep]
          obtain ⟨h1, h2, h3, h4, ⟨ext, hext⟩, h6⟩ :=
            ih (res0 ++ [kevalResult (vandermonde_matrix bEval grp)
              (c.getD grp.index [])]) cache tr0 hco hnd hst
          refine ⟨?_, h2, h3, h4, ⟨ext, hext⟩, h6⟩
          rw [h1, List.map_cons, List.append_assoc, List.singleton_append]
      | none =>
          have hstep : evalStep bEval c (res0, cache, tr0) grp
              = (res0 ++ [kevalResult (vandermonde_matrix bEval grp)
                    (c.getD grp.index [])],
                  cache ++ [(discretization_key grp,
                    vandermonde_matrix bEval grp)],
                  tr0 ++ [discretization_key grp]) := by
            unfold evalStep
            rw [show (vdmLookupOrCompute bEval
                (res0, cache, tr0).2.1 grp)
              = (vandermonde_matrix bEval grp,
                  cache ++ [(discretization_key grp,
                    vandermonde_matrix bEval grp)], true)
              from vdmLookupOrCompute_miss bEval cache grp hlook]
            simp
          rw [hstep]
          have hknotin : discretization_key grp ∉ tr0 := by
            intro hmem
            have := hst _ hmem
            rw [hlook] at this
            exact Bool.noConfusion this
          have hco2 : ∀ p ∈ cache ++ [(discretization_key grp,
              vandermonde_matrix bEval grp)], p.2 = vdmOfKey bEval p.1 := by
            intro p hp
            rcases List.mem_append.mp hp with hp | hp
            · exact hco p hp
            · rw [List.mem_singleton.mp hp]
              rfl
          have hnd2 : (tr0 ++ [discretization_key grp]).Nodup := by
            rw [List.nodup_append]
            exact ⟨hnd, List.nodup_singleton _,
              fun a ha hb => hknotin ((List.mem_singleton.mp hb) ▸ ha)⟩
          have hst2 : ∀ key ∈ tr0 ++ [discretization_key grp],
              ((cache ++ [(discretization_key grp,
                vandermonde_matrix bEval grp)]).lookup key).isSome = true := by
            intro key hkey
            rw [lookup_append_eq]
            rcases List.mem_append.mp hkey with hkey | hkey
            · have := hst _ hkey
              cases hsome : cache.lookup key with
              | some v => rfl
              | none => rw [hsome] at this; exact absurd this (by simp)
            · rw [List.mem_singleton.mp hkey, hlook, List.lookup_cons]
              simp
          obtain ⟨h1, h2, h3, h4, ⟨ext, hext⟩, h6⟩ :=
            ih (res0 ++ [kevalResult (vandermonde_matrix bEval grp)
              (c.getD grp.index [])])
              (cache ++ [(discretization_key grp, vandermonde_matrix bEval grp)])
              (tr0 ++ [discretization_key grp]) hco2 hnd2 hst2
          refine ⟨?_, h2, h3, h4,
            ⟨(discretization_key grp, vandermonde_matrix bEval grp) :: ext,
              by rw [hext, List.append_assoc, List.singleton_append]⟩, ?_⟩
          · rw [h1, List.map_cons, List.append_assoc, List.singleton_append]
          · intro key hkey
            rcases h6 key hkey with hmem | hnone
            · rcases List.mem_append.mp hmem with hmem | hmem
              · exact Or.inl hmem
              · rw [List.mem_singleton.mp hmem]
                exact Or.inr hlook
            · rw [lookup_append_eq] at hnone
              cases hsome : cache.lookup key with
              | some v => rw [hsome] at hnone; exact absurd hnone (by simp)
              | none => exact Or.inr rfl

theorem kevalResult_entry (vdm coeff : List (List ℚ)) (iel idof : Nat)
    (hiel : iel < coeff.length) (hidof : idof < (coeff.getD 0 []).length) :
    ((kevalResult vdm coeff).getD iel []).getD idof 0
      = ((List.range ((coeff.getD 0 []).length)).map (fun ib =>
          ((vdm.getD idof []).getD ib 0)
            * ((coeff.getD iel []).getD ib 0))).sum := by
  have hlen : iel < (kevalResult vdm coeff).length := by
    unfold kevalResult
    simpa using hiel
  rw [List.getD_eq_getElem (kevalResult vdm coeff) [] hlen]
  unfold kevalResult
  rw [List.getElem_map, List.getElem_range]
  rw [List.getD_eq_getElem _ 0 (by simpa using hidof), List.getElem_map,
    List.getElem_range]

theorem vandermonde_matrix_entry (bEval : Nat → List ℚ → ℚ)
    (g : ElementGroup) (idof ibasis : Nat)
    (h1 : idof < (g.unitNodes.getD 0 []).length)
    (h2 : ibasis < g.basisIds.length) :
    (((vandermonde_matrix bEval g).getD idof []).getD ibasis 0)
      = bEval (g.basisIds.getD ibasis 0) (runColumn g.unitNodes idof) := by
  have hlen1 : idof < (vandermonde_matrix bEval g).length := by
    unfold vandermonde_matrix vdmOfKey
    simpa using h1
  rw [List.getD_eq_getElem (vandermonde_matrix bEval g) [] hlen1]
  unfold vandermonde_matrix vdmOfKey
  rw [List.getElem_map, List.getElem_range]
  rw [List.getD_eq_getElem _ 0 (by simpa using h2), List.getElem_map,
    List.getElem_range]
  rfl

/-- C3: under any coherent starting cache, the evaluation stage maps
every parent group to keval of its Vandermonde matrix against its
coefficient slice (result[iel, idof] = sum over ibasis of
vdm[idof, ibasis] * coefficients[iel, ibasis], with
vdm[idof, ibasis] = basis function ibasis at unit node idof), and the
Vandermonde cache discipline holds: the keys computed during the call
are pairwise distinct (at most one build per structural identity), are
exactly keys the starting cache lacked, are all present in the final
cache afterwards, and the final cache remains coherent. -/
theorem claim_C3 (inv : L2Inverse) (bEval : Nat → List ℚ → ℚ)
    (c : List (List (List ℚ))) (cache : VdmCache)
    (hcache : ∀ p ∈ cache, p.2 = vdmOfKey bEval p.1) :
    ((evalStage inv bEval c cache).1
        = inv.to_discr.groups.map (fun grp =>
            kevalResult (vandermonde_matrix bEval grp) (c.getD grp.index [])))
    ∧ (∀ vdm coeff : List (List ℚ), ∀ iel idof : Nat,
        iel < coeff.length → idof < (coeff.getD 0 []).length →
        ((kevalResult vdm coeff).getD iel []).getD idof 0
          = ((List.range ((coeff.getD 0 []).length)).map (fun ib =>
              ((vdm.getD idof []).getD ib 0)
                * ((coeff.getD iel []).getD ib 0))).sum)
    ∧ (∀ g : ElementGroup, ∀ idof ibasis : Nat,
        idof < (g.unitNodes.getD 0 []).length → ibasis < g.basisIds.length →
        (((vandermonde_matrix bEval g).getD idof []).getD ibasis 0)
          = bEval (g.basisIds.getD ibasis 0) (runColumn g.unitNodes idof))
    ∧ ((evalStage inv bEval c cache).2.2).Nodup
    ∧ (∀ key ∈ (evalStage inv bEval c cache).2.2, cache.lookup key = none)
    ∧ (∀ key ∈ (evalStage inv bEval c cache).2.2,
        (((evalStage inv bEval c cache).2.1).lookup key).isSome = true)
    ∧ (∀ p ∈ (evalStage inv bEval c cache).2.1,
        p.2 = vdmOfKey bEval p.1) := by
  obtain ⟨h1, h2, h3, h4, -, h6⟩ :=
    evalFold_facts bEval c inv.to_discr.groups [] cache [] hcache
      List.nodup_nil (fun key hk => absurd hk (List.not_mem_nil key))
  refine ⟨by rw [show evalStage inv bEval c cache
      = inv.to_discr.groups.foldl (evalStep bEval c) ([], cache, []) from rfl,
      h1, List.nil_append],
    fun vdm coeff iel idof hiel hidof =>
      kevalResult_entry vdm coeff iel idof hiel hidof,
    fun g idof ibasis hi hb =>
      vandermonde_matrix_entry bEval g idof ibasis hi hb,
    h3, ?_, h4, h2⟩
  intro key hkey
  rcases h6 key hkey with hmem | hnone
  · exact absurd hmem (List.not_mem_nil key)
  · exact hnone

/-- C3 witness: on the concrete connection, starting from the empty
(trivially coherent) cache, the evaluation-stage output is keval of the
group's Vandermonde matrix against coefficient slice 0. -/
theorem claim_C3_witness :
    (evalStage exInv exEval [[[2]]] []).1
      = [exGroup].map (fun grp =>
          kevalResult (vandermonde_matrix exEval grp)
            ([[[2]]].getD grp.index [])) :=
  (claim_C3 exInv exEval [[[2]]] []
    (fun p hp => absurd hp (List.not_mem_nil p))).1

end L2Proj
